import Mathlib

/-!
Verification development for the contract-source-viewer automation pipeline.

The TypeScript modules under src/automation (contractListLoader.ts,
batchContractFetcher.ts, abiExtractor.ts, codeGraphBuilder.ts,
communicationGraphBuilder.ts and the CLI runner) are shallowly embedded as
executable Lean definitions.  File-system reads, network requests and console
output are abstracted as explicit oracles; everything else follows the source
statement by statement.  JavaScript Maps are modelled as insertion-ordered
association lists (Map.set keeps the position of an existing key), arrays as
lists, thrown exceptions as Except values, and JavaScript string operations
(includes, toLowerCase, split, regex scans used by the source) as executable
functions over Lean strings.
-/

namespace ContractViewer

/-- JavaScript String.prototype.includes: true when sub occurs contiguously in s. -/
def strContains (s sub : String) : Bool :=
  let l := s.toList
  let p := sub.toList
  (List.range (l.length + 1)).any (fun i => List.take p.length (List.drop i l) == p)

/-- JavaScript String.prototype.toLowerCase restricted to ASCII, which covers
every string the source lowercases. -/
def strToLower (s : String) : String :=
  ⟨s.data.map Char.toLower⟩

/-- Whitespace test used by the trim model. -/
def isWs (c : Char) : Bool :=
  c == ' ' || c == '\t' || c == '\n' || c == '\r'

/-- JavaScript String.prototype.trim. -/
def strTrim (s : String) : String :=
  ⟨(((s.data.dropWhile isWs).reverse.dropWhile isWs).reverse)⟩

/-- JavaScript String.prototype.split with a single-character separator;
always returns at least one (possibly empty) piece. -/
def splitOnSep (sep : Char) : List Char → List (List Char)
  | [] => [[]]
  | c :: rest =>
      match splitOnSep sep rest with
      | [] => [[c]]
      | h :: t => if c == sep then [] :: h :: t else (c :: h) :: t

/-- A contract-list entry from the input JSON files (automation/types.ts). -/
structure ContractEntry where
  address : String
  blockchain : String
  contract_name : String
  protocol : String
deriving DecidableEq

/-- CHAIN_ID_MAP from automation/types.ts. -/
def CHAIN_ID_MAP : List (String × String) :=
  [("ethereum", "1"), ("bnb", "56"), ("bsc", "56"), ("polygon", "137"),
   ("arbitrum", "42161"), ("optimism", "10"), ("base", "8453"),
   ("avalanche", "43114"), ("fantom", "250"), ("abstract", "2741")]

/-- Lookup CHAIN_ID_MAP[blockchain]; all stored ids are nonempty strings, so
JavaScript truthiness of the lookup coincides with isSome here. -/
def chainIdOf (blockchain : String) : Option String :=
  (CHAIN_ID_MAP.find? (fun p => p.1 == blockchain)).map (fun p => p.2)

/-- ASCII hexadecimal digit, as matched by the character class of the
address regular expressions in the source. -/
def isHexDigit (c : Char) : Bool :=
  c.isDigit || ('a' ≤ c && c ≤ 'f') || ('A' ≤ c && c ≤ 'F')

/-- Test of contractListLoader.ts, isValidContractEntry: the case-insensitive
regular expression anchored on 0x followed by exactly 40 hex digits. -/
def isValidAddressCI (s : String) : Bool :=
  match s.toList with
  | c0 :: c1 :: rest =>
      (c0 == '0') && (c1 == 'x' || c1 == 'X') && rest.length == 40 && rest.all isHexDigit
  | _ => false

/-- normalizeContractEntry of contractListLoader.ts.  The JavaScript
"value || default" idiom maps empty strings to the default. -/
def normalizeContractEntry (e : ContractEntry) : ContractEntry :=
  { address := strTrim (strToLower e.address)
    blockchain := strTrim (strToLower e.blockchain)
    contract_name := if strTrim e.contract_name == "" then "Unknown" else strTrim e.contract_name
    protocol := if strTrim e.protocol == "" then "Unknown" else strTrim e.protocol }

/-- isValidContractEntry of contractListLoader.ts. -/
def isValidContractEntry (e : ContractEntry) : Bool :=
  !(e.address == "") && isValidAddressCI e.address &&
    !(e.blockchain == "") && (chainIdOf e.blockchain).isSome

/-- The deduplication key built by removeDuplicates: the template string
blockchain colon address. -/
def dupKey (e : ContractEntry) : String :=
  e.blockchain ++ ":" ++ e.address

/-- The loop of removeDuplicates, with the seen-set and output threaded
explicitly. -/
def removeDuplicatesAux (seen : List String) : List ContractEntry → List ContractEntry
  | [] => []
  | c :: rest =>
      if dupKey c ∈ seen then removeDuplicatesAux seen rest
      else c :: removeDuplicatesAux (dupKey c :: seen) rest

/-- removeDuplicates of contractListLoader.ts. -/
def removeDuplicates (contracts : List ContractEntry) : List ContractEntry :=
  removeDuplicatesAux [] contracts

/-- Abstraction of fs.readFileSync plus JSON.parse applied to one input file:
either the decoded list of raw entries or the message of the thrown error. -/
def FileReader : Type :=
  String → Except String (List ContractEntry)

/-- loadContractsFromFile of contractListLoader.ts: normalize then filter the
decoded entries; any read or parse error is rethrown wrapped in a message
naming the file. -/
def loadContractsFromFile (read : FileReader) (filePath : String) :
    Except String (List ContractEntry) :=
  match read filePath with
  | .ok contracts => .ok ((contracts.map normalizeContractEntry).filter isValidContractEntry)
  | .error e => .error ("Failed to load contracts from " ++ filePath ++ ": " ++ e)

/-- loadContractsFromFiles of contractListLoader.ts.  The loop has no
try/catch, so the first failing file propagates its error and the entries
accumulated so far are discarded. -/
def loadContractsFromFiles (read : FileReader) : List String → Except String (List ContractEntry)
  | [] => .ok []
  | fp :: rest =>
      match loadContractsFromFile read fp with
      | .error e => .error e
      | .ok cs =>
          match loadContractsFromFiles read rest with
          | .error e => .error e
          | .ok more => .ok (cs ++ more)

/-- The input-file loading loop of runAutomation (the CLI runner): each call to
loadContractsFromFile is wrapped in try/catch, a failing file is logged and
skipped, and the surviving entries are concatenated in file order. -/
def cliLoadInputFiles (read : FileReader) : List String → List ContractEntry
  | [] => []
  | fp :: rest =>
      match loadContractsFromFile read fp with
      | .ok cs => cs ++ cliLoadInputFiles read rest
      | .error _ => cliLoadInputFiles read rest

/-! ### ABI data model (automation/types.ts) -/

/-- The tag of an ABI item. -/
inductive ABIType where
  | function
  | event
  | constructor
  | fallback
  | receive
  | error
deriving DecidableEq

/-- An ABI parameter.  Components of tuple types nest recursively; an absent
components field is modelled as the empty list, and an absent indexed flag
as false (both are falsy in JavaScript). -/
inductive ABIParameter where
  | mk (name : String) (type : String) (indexed : Bool) (components : List ABIParameter)

/-- The declared name of an ABI parameter. -/
def ABIParameter.name : ABIParameter → String
  | .mk n _ _ _ => n

/-- An ABI item.  Absent optional fields are none (name, stateMutability) or
the empty list (inputs, outputs). -/
structure ABIItem where
  type : ABIType
  name : Option String := none
  inputs : List ABIParameter := []
  outputs : List ABIParameter := []
  stateMutability : Option String := none

/-- A single named source file of a fetched contract. -/
structure SourceFile where
  filename : String
  content : String

/-- A fetched contract (automation/types.ts).  The optional compiler metadata
fields are never read by the modelled modules and are omitted. -/
structure FetchedContract where
  address : String
  blockchain : String
  chainId : String
  contractName : String
  protocol : String
  sourceCode : String
  abi : Option (List ABIItem)
  fetchedAt : String
  sources : List SourceFile

/-! ### ABI extractor (abiExtractor.ts) -/

/-- JavaScript String.prototype.replace with a string pattern: replace the
first occurrence only. -/
def replaceFirstStr (s pat rep : String) : String :=
  match (List.range (s.toList.length + 1)).find?
      (fun i => List.take pat.toList.length (List.drop i s.toList) == pat.toList) with
  | none => s
  | some i => ⟨s.toList.take i ++ rep.toList ++ s.toList.drop (i + pat.toList.length)⟩

/-- formatParameter of abiExtractor.ts: tuple parameters expand their
component list in place of the tuple keyword. -/
def formatParameter : ABIParameter → String
  | .mk name ty _ components =>
      if components.length != 0 && strContains ty "tuple" then
        let formatted := components.attach.map (fun x => formatParameter x.1)
        let tupleType := replaceFirstStr ty "tuple" ("(" ++ String.intercalate ", " formatted ++ ")")
        if name != "" then tupleType ++ " " ++ name else tupleType
      else
        if name != "" then ty ++ " " ++ name else ty
termination_by p => sizeOf p
decreasing_by
  have hx := List.sizeOf_lt_of_mem x.2
  simp only [ABIParameter.mk.sizeOf_spec]
  omega

/-- extractFunctionSignatures of abiExtractor.ts.  The JavaScript truthiness
filter on item.name keeps items whose name is present and nonempty. -/
def extractFunctionSignatures (abi : List ABIItem) : List String :=
  (abi.filter (fun item => item.type == .function && item.name.getD "" != "")).map
    (fun item =>
      let inputs := String.intercalate ", " (item.inputs.map formatParameter)
      let outputs := String.intercalate ", " (item.outputs.map formatParameter)
      let mutability := if item.stateMutability.getD "" != "" then " " ++ item.stateMutability.getD "" else ""
      item.name.getD "" ++ "(" ++ inputs ++ ")" ++ mutability ++
        (if outputs != "" then " returns (" ++ outputs ++ ")" else ""))

/-- extractEventSignatures of abiExtractor.ts. -/
def extractEventSignatures (abi : List ABIItem) : List String :=
  (abi.filter (fun item => item.type == .event && item.name.getD "" != "")).map
    (fun item =>
      let inputs := String.intercalate ", "
        (item.inputs.map (fun p =>
          match p with
          | .mk n ty ind _ => ty ++ (if ind then " indexed" else "") ++ " " ++ n))
      "event " ++ item.name.getD "" ++ "(" ++ inputs ++ ")")

/-- The names of the function items of an ABI, exactly as declared
(a missing name stays none). -/
def abiFunctionNames (abi : List ABIItem) : List (Option String) :=
  (abi.filter (fun item => item.type == ABIType.function)).map (fun item => item.name)

/-- The required function names of isERC20. -/
def erc20Required : List String :=
  ["name", "symbol", "decimals", "totalSupply", "balanceOf", "transfer",
   "approve", "allowance", "transferFrom"]

/-- isERC20 of abiExtractor.ts: every required name is a member of the set of
function names. -/
def isERC20 (abi : List ABIItem) : Bool :=
  erc20Required.all (fun fn => (abiFunctionNames abi).contains (some fn))

/-- The required function names of isERC721. -/
def erc721Required : List String :=
  ["balanceOf", "ownerOf", "safeTransferFrom", "transferFrom", "approve",
   "getApproved", "setApprovalForAll", "isApprovedForAll"]

/-- isERC721 of abiExtractor.ts. -/
def isERC721 (abi : List ABIItem) : Bool :=
  erc721Required.all (fun fn => (abiFunctionNames abi).contains (some fn))

/-- The required function names of isERC1155. -/
def erc1155Required : List String :=
  ["balanceOf", "balanceOfBatch", "setApprovalForAll", "isApprovedForAll",
   "safeTransferFrom", "safeBatchTransferFrom"]

/-- isERC1155 of abiExtractor.ts. -/
def isERC1155 (abi : List ABIItem) : Bool :=
  erc1155Required.all (fun fn => (abiFunctionNames abi).contains (some fn))

/-- The lowercased names of the function items of an ABI, as built by
detectProxyPattern and by the communication graph role detector. -/
def lowerFunctionNames (abi : List ABIItem) : List (Option String) :=
  (abi.filter (fun item => item.type == ABIType.function)).map
    (fun item => item.name.map strToLower)

/-- detectProxyPattern of abiExtractor.ts.  The indicator list keeps the mixed
case of the source even though the name set is lowercased. -/
def detectProxyPattern (abi : List ABIItem) : Bool :=
  ["implementation", "upgradeTo", "upgradeToAndCall", "_implementation"].any
    (fun indicator => (lowerFunctionNames abi).contains (some indicator))

/-- The four regex-based source-text extractors of abiExtractor.ts
(extractInterfacesFromSource, extractInheritance, extractExternalCalls,
extractImports).  Their JavaScript regular-expression semantics are left
abstract: every theorem below holds for an arbitrary choice of these
functions, which only feed name lookups in the graph builders. -/
structure SourceExtractors where
  extractInterfacesFromSource : String → List String
  extractInheritance : String → List String
  extractExternalCalls : String → List String
  extractImports : String → List String

/-- The result record of analyzeContract in abiExtractor.ts. -/
structure ContractAnalysis where
  functions : List String
  events : List String
  isERC20 : Bool
  isERC721 : Bool
  isERC1155 : Bool
  isProxy : Bool
  interfaces : List String
  inheritance : List String
  externalCalls : List String
  imports : List String

/-- The concatenation of the contents of a contract's source files with
newline separators, as computed by both graph builders and analyzeContract. -/
def joinSources (c : FetchedContract) : String :=
  String.intercalate "\n" (c.sources.map (fun s => s.content))

/-- analyzeContract of abiExtractor.ts. -/
def analyzeContract (ex : SourceExtractors) (c : FetchedContract) : ContractAnalysis :=
  let abi := c.abi.getD []
  let sourceCode := joinSources c
  { functions := extractFunctionSignatures abi
    events := extractEventSignatures abi
    isERC20 := ContractViewer.isERC20 abi
    isERC721 := ContractViewer.isERC721 abi
    isERC1155 := ContractViewer.isERC1155 abi
    isProxy := detectProxyPattern abi
    interfaces := ex.extractInterfacesFromSource sourceCode
    inheritance := ex.extractInheritance sourceCode
    externalCalls := ex.extractExternalCalls sourceCode
    imports := ex.extractImports sourceCode }

/-! ### Batch contract fetcher (batchContractFetcher.ts) -/

/-- Outcome of one invocation of fetchContract for one entry: a fetched
contract, or the message of the thrown error.  The network request, the
status-flag checks and the response parsing inside fetchContract are
abstracted into this single outcome. -/
inductive FetchOutcome where
  | ok (v : FetchedContract)
  | err (msg : String)

/-- The terminal-error test of fetchContractWithRetry: messages mentioning
not found or not verified are never retried. -/
def isNonRetryable (msg : String) : Bool :=
  strContains msg "not found" || strContains msg "not verified"

/-- The retry loop of fetchContractWithRetry.  The outcome of the attempt
numbered n is attempts n; remaining counts the loop iterations still allowed,
attempt is the current loop index, and last is the lastError variable.  The
first component collects the backoff delays slept (in order), the second is
the returned contract or the raised error (error none models the JavaScript
throw of a null lastError when maxRetries is zero). -/
def retryLoop (d : Nat) (attempts : Nat → FetchOutcome) :
    Nat → Nat → Option String → List Nat × Except (Option String) FetchedContract
  | 0, _, last => ([], .error last)
  | remaining + 1, attempt, _ =>
      match attempts attempt with
      | .ok v => ([], .ok v)
      | .err m =>
          if isNonRetryable m then ([], .error (some m))
          else if remaining > 0 then
            let r := retryLoop d attempts remaining (attempt + 1) (some m)
            (d * 2 ^ attempt :: r.1, r.2)
          else
            retryLoop d attempts remaining (attempt + 1) (some m)

/-- fetchContractWithRetry of batchContractFetcher.ts, with
d = options.delayBetweenRequests and maxRetries = options.maxRetries. -/
def fetchContractWithRetry (d maxRetries : Nat) (attempts : Nat → FetchOutcome) :
    List Nat × Except (Option String) FetchedContract :=
  retryLoop d attempts maxRetries 0 none

/-- An attempt oracle: for every contract entry, the outcome of each of its
successive fetchContract attempts. -/
def AttemptOracle : Type :=
  ContractEntry → Nat → FetchOutcome

/-- processBatch of batchContractFetcher.ts: the list of successfully fetched
contracts (in order) and the addresses pushed onto status.failedContracts
(in order).  Progress callbacks, console logging and the inter-request delay
are observational and do not affect either list. -/
def processBatch (d maxRetries : Nat) (world : AttemptOracle) :
    List ContractEntry → List FetchedContract × List String
  | [] => ([], [])
  | e :: rest =>
      let r := (fetchContractWithRetry d maxRetries (world e)).2
      let tail := processBatch d maxRetries world rest
      match r with
      | .ok v => (v :: tail.1, tail.2)
      | .error _ => (tail.1, e.address :: tail.2)

/-- Whether the per-contract fetch (with retries) of an entry succeeds. -/
def fetchSucceeded (d maxRetries : Nat) (world : AttemptOracle) (e : ContractEntry) : Bool :=
  match (fetchContractWithRetry d maxRetries (world e)).2 with
  | .ok _ => true
  | .error _ => false

/-- The fetched contract of an entry, when the fetch (with retries) succeeds. -/
def fetchValue? (d maxRetries : Nat) (world : AttemptOracle) (e : ContractEntry) :
    Option FetchedContract :=
  match (fetchContractWithRetry d maxRetries (world e)).2 with
  | .ok v => some v
  | .error _ => none

/-! ### Insertion-ordered maps and the address scanner -/

/-- JavaScript Map.set on an insertion-ordered association list: an existing
key keeps its position and gets the new value, a new key is appended. -/
def mapSet {β : Type} (m : List (String × β)) (k : String) (v : β) : List (String × β) :=
  if m.any (fun p => p.1 == k) then
    m.map (fun p => if p.1 == k then (k, v) else p)
  else
    m ++ [(k, v)]

/-- JavaScript Map.get: the value of the first (hence only) pair with the key. -/
def mapGet {β : Type} (m : List (String × β)) (k : String) : Option β :=
  (m.find? (fun p => p.1 == k)).map (fun p => p.2)

/-- JavaScript Map.has. -/
def mapHas {β : Type} (m : List (String × β)) (k : String) : Bool :=
  m.any (fun p => p.1 == k)

/-- JavaScript Set.add on an insertion-ordered list of strings. -/
def insertUnique (l : List String) (s : String) : List String :=
  if s ∈ l then l else l ++ [s]

/-- Insertion-ordered deduplication, as produced by the spread of a
JavaScript Set built from a list. -/
def uniqueList (l : List String) : List String :=
  l.foldl insertUnique []

/-- Attempted match of the regular expression 0x followed by exactly 40 hex
digits at the head of the character list. -/
def matchAddressAt (l : List Char) : Option (List Char) :=
  match l with
  | '0' :: 'x' :: rest =>
      let hex := rest.take 40
      if hex.length == 40 && hex.all isHexDigit then some ('0' :: 'x' :: hex) else none
  | _ => none

/-- Fueled scanner for the global regular-expression search over source text:
after a match the search resumes past the matched 42 characters, otherwise it
advances one position.  The fuel is initialized to the list length, which
always suffices. -/
def scanAddressesAux : Nat → List Char → List String
  | 0, _ => []
  | _, [] => []
  | fuel + 1, c :: rest =>
      match matchAddressAt (c :: rest) with
      | some addr => (⟨addr⟩ : String) :: scanAddressesAux fuel ((c :: rest).drop 42)
      | none => scanAddressesAux fuel rest

/-- All matches of the 40-hex-digit address pattern in a string, in order. -/
def scanAddresses (s : String) : List String :=
  scanAddressesAux s.toList.length s.toList

/-! ### Code graph builder (codeGraphBuilder.ts) -/

/-- Contract relationship types (automation/types.ts). -/
inductive RelationshipType where
  | inherits
  | imports
  | calls
  | creates
  | uses_interface
  | same_protocol
  | similar_code
deriving DecidableEq

/-- Optional edge metadata.  The similarity field is declared in the source
but never written by any code path; its numeric type is modelled as Int. -/
structure EdgeMetadata where
  functionName : Option String := none
  eventName : Option String := none
  similarity : Option Int := none
deriving DecidableEq

/-- A directed edge of the code graph. -/
structure ContractEdge where
  source : String
  target : String
  relationshipType : RelationshipType
  metadata : Option EdgeMetadata := none
deriving DecidableEq

/-- A node of the code graph. -/
structure ContractNode where
  address : String
  blockchain : String
  contractName : String
  protocol : String
  functions : List String
  events : List String
  hasProxy : Bool
  implementsInterfaces : List String

/-- The mutable state of a CodeGraphBuilder instance. -/
structure CodeGraphBuilderState where
  nodes : List (String × ContractNode)
  edges : List ContractEdge
  addressToContract : List (String × FetchedContract)
  nameToAddresses : List (String × List String)

/-- A freshly constructed CodeGraphBuilder. -/
def emptyCodeState : CodeGraphBuilderState :=
  { nodes := [], edges := [], addressToContract := [], nameToAddresses := [] }

/-- The indexing loop at the top of addContracts: record the contract under
its lowercased address and push that address onto the list registered for its
lowercased name. -/
def indexContract (st : CodeGraphBuilderState) (c : FetchedContract) : CodeGraphBuilderState :=
  let st1 := { st with addressToContract := mapSet st.addressToContract (strToLower c.address) c }
  let normalizedName := strToLower c.contractName
  let addresses := (mapGet st1.nameToAddresses normalizedName).getD []
  { st1 with nameToAddresses := mapSet st1.nameToAddresses normalizedName (addresses ++ [strToLower c.address]) }

/-- buildNode of codeGraphBuilder.ts. -/
def buildNode (ex : SourceExtractors) (c : FetchedContract) : ContractNode :=
  let analysis := analyzeContract ex c
  { address := c.address
    blockchain := c.blockchain
    contractName := c.contractName
    protocol := c.protocol
    functions := analysis.functions.take 50
    events := analysis.events.take 20
    hasProxy := analysis.isProxy
    implementsInterfaces := analysis.interfaces }

/-- The node-building loop of addContracts. -/
def setNode (ex : SourceExtractors) (st : CodeGraphBuilderState) (c : FetchedContract) :
    CodeGraphBuilderState :=
  { st with nodes := mapSet st.nodes (strToLower c.address) (buildNode ex c) }

/-- findContractsByName of codeGraphBuilder.ts. -/
def findContractsByName (st : CodeGraphBuilderState) (name : String) : List String :=
  (mapGet st.nameToAddresses (strToLower name)).getD []

/-- hasEdge of codeGraphBuilder.ts. -/
def hasEdge (edges : List ContractEdge) (s t : String) (ty : RelationshipType) : Bool :=
  edges.any (fun e => e.source == s && e.target == t && e.relationshipType == ty)

/-- addEdge of codeGraphBuilder.ts: push the edge unless one with the same
(source, target, relationshipType) key already exists. -/
def addEdge (edges : List ContractEdge) (s t : String) (ty : RelationshipType)
    (metadata : Option EdgeMetadata) : List ContractEdge :=
  if hasEdge edges s t ty then edges
  else edges ++ [{ source := s, target := t, relationshipType := ty, metadata := metadata }]

/-- The number of edges carrying a given (source, target, relationshipType)
key. -/
def edgeKeyCount (edges : List ContractEdge) (s t : String) (ty : RelationshipType) : Nat :=
  (edges.filter (fun e => e.source == s && e.target == t && e.relationshipType == ty)).length

/-- buildSameProtocolEdges of codeGraphBuilder.ts: one edge to every other
known node with the same protocol, guarded by hasEdge. -/
def buildSameProtocolEdges (st : CodeGraphBuilderState) (c : FetchedContract)
    (es0 : List ContractEdge) : List ContractEdge :=
  let ca := strToLower c.address
  st.nodes.foldl
    (fun es p =>
      if p.1 != ca && p.2.protocol == c.protocol then
        if !(hasEdge es ca p.1 .same_protocol) then
          es ++ [{ source := ca, target := p.1, relationshipType := .same_protocol }]
        else es
      else es)
    es0

/-- buildInheritanceEdges of codeGraphBuilder.ts. -/
def buildInheritanceEdges (ex : SourceExtractors) (st : CodeGraphBuilderState)
    (c : FetchedContract) (sourceCode : String) (es0 : List ContractEdge) : List ContractEdge :=
  let ca := strToLower c.address
  (ex.extractInheritance sourceCode).foldl
    (fun es inherited =>
      (findContractsByName st inherited).foldl
        (fun es ta => if ta != ca then addEdge es ca ta .inherits none else es) es)
    es0

/-- The regular expression of buildImportEdges applied to one import path:
the nonempty slash-free segment between the final slash and a terminal .sol
suffix, when both are present. -/
def importedContractName (path : String) : Option String :=
  match path.data.reverse with
  | 'l' :: 'o' :: 's' :: '.' :: rest =>
      let stem := rest.takeWhile (fun c => c != '/')
      if stem.length != 0 && rest.any (fun c => c == '/') then some ⟨stem.reverse⟩ else none
  | _ => none

/-- buildImportEdges of codeGraphBuilder.ts. -/
def buildImportEdges (ex : SourceExtractors) (st : CodeGraphBuilderState)
    (c : FetchedContract) (sourceCode : String) (es0 : List ContractEdge) : List ContractEdge :=
  let ca := strToLower c.address
  (ex.extractImports sourceCode).foldl
    (fun es importPath =>
      match importedContractName importPath with
      | some contractName =>
          (findContractsByName st contractName).foldl
            (fun es ta => if ta != ca then addEdge es ca ta .imports none else es) es
      | none => es)
    es0

/-- buildExternalCallEdges of codeGraphBuilder.ts: each extracted call is
split on the first dot into an interface name and a function name. -/
def buildExternalCallEdges (ex : SourceExtractors) (st : CodeGraphBuilderState)
    (c : FetchedContract) (sourceCode : String) (es0 : List ContractEdge) : List ContractEdge :=
  let ca := strToLower c.address
  (ex.extractExternalCalls sourceCode).foldl
    (fun es call =>
      let parts := splitOnSep '.' call.data
      let interfaceName : String := ⟨parts.headD []⟩
      let functionName : Option String := (parts[1]?).map (fun l => (⟨l⟩ : String))
      (findContractsByName st interfaceName).foldl
        (fun es ta =>
          if ta != ca then
            addEdge es ca ta .calls (some { functionName := functionName })
          else es)
        es)
    es0

/-- buildInterfaceEdges of codeGraphBuilder.ts. -/
def buildInterfaceEdges (ex : SourceExtractors) (st : CodeGraphBuilderState)
    (c : FetchedContract) (sourceCode : String) (es0 : List ContractEdge) : List ContractEdge :=
  let ca := strToLower c.address
  (ex.extractInterfacesFromSource sourceCode).foldl
    (fun es interfaceName =>
      (findContractsByName st interfaceName).foldl
        (fun es ta => if ta != ca then addEdge es ca ta .uses_interface none else es) es)
    es0

/-- buildAddressReferenceEdges of codeGraphBuilder.ts: collect the distinct
lowercased 40-hex-digit literals of the source text that name other known
nodes, then add a calls edge to each. -/
def buildAddressReferenceEdges (st : CodeGraphBuilderState) (c : FetchedContract)
    (sourceCode : String) (es0 : List ContractEdge) : List ContractEdge :=
  let ca := strToLower c.address
  let foundAddresses := (scanAddresses sourceCode).foldl
    (fun acc m =>
      let address := strToLower m
      if address != ca && mapHas st.nodes address then insertUnique acc address else acc)
    []
  foundAddresses.foldl (fun es ta => addEdge es ca ta .calls none) es0

/-- buildEdgesForContract of codeGraphBuilder.ts: the six passes in order. -/
def buildEdgesForContract (ex : SourceExtractors) (st : CodeGraphBuilderState)
    (c : FetchedContract) : CodeGraphBuilderState :=
  let sourceCode := joinSources c
  let es := buildSameProtocolEdges st c st.edges
  let es := buildInheritanceEdges ex st c sourceCode es
  let es := buildImportEdges ex st c sourceCode es
  let es := buildExternalCallEdges ex st c sourceCode es
  let es := buildInterfaceEdges ex st c sourceCode es
  let es := buildAddressReferenceEdges st c sourceCode es
  { st with edges := es }

/-- addContracts of codeGraphBuilder.ts: index all contracts, then build all
nodes, then build edges for each contract. -/
def addContracts (ex : SourceExtractors) (st : CodeGraphBuilderState)
    (contracts : List FetchedContract) : CodeGraphBuilderState :=
  let st1 := contracts.foldl indexContract st
  let st2 := contracts.foldl (setNode ex) st1
  contracts.foldl (buildEdgesForContract ex) st2

/-- The built code graph.  The generatedAt wall-clock timestamp of the source
is omitted. -/
structure CodeGraph where
  nodes : List ContractNode
  edges : List ContractEdge
  totalContracts : Nat
  totalRelationships : Nat
  protocols : List String
  blockchains : List String

/-- build of codeGraphBuilder.ts. -/
def buildGraph (st : CodeGraphBuilderState) : CodeGraph :=
  { nodes := st.nodes.map (fun p => p.2)
    edges := st.edges
    totalContracts := st.nodes.length
    totalRelationships := st.edges.length
    protocols := uniqueList (st.nodes.map (fun p => p.2.protocol))
    blockchains := uniqueList (st.nodes.map (fun p => p.2.blockchain)) }

/-- A builder run: a sequence of addContracts calls starting from a fresh
builder. -/
def runCodeBuilder (ex : SourceExtractors) (calls : List (List FetchedContract)) :
    CodeGraphBuilderState :=
  calls.foldl (addContracts ex) emptyCodeState

/-! ### Communication graph builder (communicationGraphBuilder.ts) -/

/-- Contract roles. -/
inductive ContractRole where
  | token
  | dex
  | lending
  | vault
  | governance
  | oracle
  | bridge
  | router
  | factory
  | proxy
  | multisig
  | unknown
deriving DecidableEq

/-- Communication pattern kinds. -/
inductive CommunicationPattern where
  | token_transfer
  | token_approval
  | swap
  | liquidity
  | stake
  | governance
  | oracle
  | bridge
  | lending
  | nft_mint
  | callback
  | flash_loan
  | generic_call
deriving DecidableEq

/-- A directed communication edge.  The optional frequency field of the
source interface is never written and is omitted. -/
structure CommunicationEdge where
  source : String
  target : String
  pattern : CommunicationPattern
  functions : List String
  events : List String
  bidirectional : Bool
deriving DecidableEq

/-- A communication node. -/
structure CommunicationNode where
  address : String
  contractName : String
  protocol : String
  blockchain : String
  role : ContractRole
  communicationCount : Nat
  inboundCount : Nat
  outboundCount : Nat

/-- Membership in the lowercased function-name set of a contract ABI
(Set.has of the source). -/
def hasFn (fns : List (Option String)) (fn : String) : Bool :=
  fns.contains (some fn)

/-- hasERC20Functions of communicationGraphBuilder.ts. -/
def hasERC20Functions (fns : List (Option String)) : Bool :=
  hasFn fns "transfer" && hasFn fns "approve" && hasFn fns "balanceof"

/-- hasDEXFunctions of communicationGraphBuilder.ts. -/
def hasDEXFunctions (fns : List (Option String)) : Bool :=
  hasFn fns "swap" || hasFn fns "swapexacttokensfortokens" ||
    hasFn fns "addliquidity" || hasFn fns "removeliquidity"

/-- hasLendingFunctions of communicationGraphBuilder.ts. -/
def hasLendingFunctions (fns : List (Option String)) : Bool :=
  hasFn fns "borrow" || hasFn fns "repay" || hasFn fns "liquidate" ||
    (hasFn fns "supply" && hasFn fns "withdraw")

/-- hasGovernanceFunctions of communicationGraphBuilder.ts. -/
def hasGovernanceFunctions (fns : List (Option String)) : Bool :=
  hasFn fns "propose" || hasFn fns "castvote" || hasFn fns "queue" || hasFn fns "execute"

/-- detectContractRole of communicationGraphBuilder.ts: the ordered chain of
role tests over the lowercased function-name set and lowercased contract
name. -/
def detectContractRole (c : FetchedContract) : ContractRole :=
  let abi := c.abi.getD []
  let name := strToLower c.contractName
  let functionNames := lowerFunctionNames abi
  if hasERC20Functions functionNames || strContains name "token" then .token
  else if hasDEXFunctions functionNames || strContains name "swap" || strContains name "router" then .dex
  else if strContains name "router" then .router
  else if hasFn functionNames "createpair" || hasFn functionNames "createpool" || strContains name "factory" then .factory
  else if hasLendingFunctions functionNames || strContains name "lend" || strContains name "borrow" then .lending
  else if hasFn functionNames "deposit" && hasFn functionNames "withdraw" && strContains name "vault" then .vault
  else if hasGovernanceFunctions functionNames || strContains name "governance" || strContains name "governor" then .governance
  else if hasFn functionNames "latestanswer" || hasFn functionNames "getprice" || strContains name "oracle" then .oracle
  else if strContains name "bridge" || hasFn functionNames "sendmessage" || hasFn functionNames "receivemessage" then .bridge
  else if hasFn functionNames "implementation" || hasFn functionNames "upgradeto" then .proxy
  else if hasFn functionNames "submittransaction" || hasFn functionNames "confirmtransaction" || strContains name "multisig" then .multisig
  else .unknown

/-- buildNode of communicationGraphBuilder.ts. -/
def commBuildNode (c : FetchedContract) : CommunicationNode :=
  { address := c.address
    contractName := c.contractName
    protocol := c.protocol
    blockchain := c.blockchain
    role := detectContractRole c
    communicationCount := 0
    inboundCount := 0
    outboundCount := 0 }

/-- detectCommunicationPattern of communicationGraphBuilder.ts. -/
def detectCommunicationPattern (tgt : FetchedContract) (sourceCode : String) :
    CommunicationPattern :=
  let targetRole := detectContractRole tgt
  if targetRole == .token && (strContains sourceCode ".transfer(" || strContains sourceCode ".transferFrom(") then
    .token_transfer
  else if targetRole == .token && strContains sourceCode ".approve(" then
    .token_approval
  else if (targetRole == .dex || targetRole == .router) && (strContains sourceCode "swap" || strContains sourceCode "Swap") then
    .swap
  else if (targetRole == .dex || targetRole == .router) && (strContains sourceCode "addLiquidity" || strContains sourceCode "removeLiquidity") then
    .liquidity
  else if targetRole == .lending then .lending
  else if targetRole == .oracle then .oracle
  else if targetRole == .bridge then .bridge
  else if targetRole == .governance then .governance
  else if strContains sourceCode "Callback" || strContains sourceCode "callback" then .callback
  else if strContains sourceCode "flashLoan" || strContains sourceCode "FlashLoan" then .flash_loan
  else .generic_call

/-- findRelatedFunctions of communicationGraphBuilder.ts: the target's
declared function names that textually appear invoked in the source text. -/
def findRelatedFunctions (tgt : FetchedContract) (sourceCode : String) : List String :=
  let targetFunctions := ((tgt.abi.getD []).filter
    (fun i => i.type == ABIType.function && i.name.getD "" != "")).map (fun i => i.name.getD "")
  targetFunctions.filter
    (fun fn => strContains sourceCode ("." ++ fn ++ "(") || strContains sourceCode (fn ++ "("))

/-- findRelatedEvents of communicationGraphBuilder.ts: the first ten declared
event names of the source contract. -/
def findRelatedEvents (src : FetchedContract) : List String :=
  (((src.abi.getD []).filter (fun i => i.type == ABIType.event && i.name.getD "" != "")).map
    (fun i => i.name.getD "")).take 10

/-- checkBidirectional of communicationGraphBuilder.ts: whether the current
edge list already holds an edge in the opposite direction. -/
def checkBidirectional (edges : List CommunicationEdge) (address1 address2 : String) : Bool :=
  edges.any (fun e => e.source == address2 && e.target == address1)

/-- addEdge of communicationGraphBuilder.ts: push unless an edge with the
same (source, target, pattern) key exists. -/
def commAddEdge (edges : List CommunicationEdge) (edge : CommunicationEdge) :
    List CommunicationEdge :=
  if edges.any (fun e => e.source == edge.source && e.target == edge.target && e.pattern == edge.pattern) then
    edges
  else
    edges ++ [edge]

/-- The mutable state of a CommunicationGraphBuilder instance. -/
structure CommBuilderState where
  nodes : List (String × CommunicationNode)
  edges : List CommunicationEdge
  addressToContract : List (String × FetchedContract)

/-- A freshly constructed CommunicationGraphBuilder. -/
def emptyCommState : CommBuilderState :=
  { nodes := [], edges := [], addressToContract := [] }

/-- analyzeCommunications of communicationGraphBuilder.ts: collect the
distinct referenced known addresses of the source text, then add one edge per
referenced contract, computing the bidirectional flag against the edges
present at that moment.  analyzeByFunctionPatterns only computes a local list
and changes no state, so it contributes nothing here. -/
def analyzeCommunications (st : CommBuilderState) (c : FetchedContract) : CommBuilderState :=
  let sourceCode := joinSources c
  let contractAddress := strToLower c.address
  let referencedAddresses := (scanAddresses sourceCode).foldl
    (fun acc m =>
      let address := strToLower m
      if address != contractAddress && mapHas st.nodes address then insertUnique acc address
      else acc)
    []
  let edges := referencedAddresses.foldl
    (fun es targetAddress =>
      match mapGet st.addressToContract targetAddress with
      | some targetContract =>
          commAddEdge es
            { source := contractAddress
              target := targetAddress
              pattern := detectCommunicationPattern targetContract sourceCode
              functions := findRelatedFunctions targetContract sourceCode
              events := findRelatedEvents c
              bidirectional := checkBidirectional es contractAddress targetAddress }
      | none => es)
    st.edges
  { st with edges := edges }

/-- updateCommunicationCounts of communicationGraphBuilder.ts. -/
def updateCommunicationCounts (st : CommBuilderState) : CommBuilderState :=
  { st with nodes := st.nodes.map (fun p =>
      let outbound := (st.edges.filter (fun e => e.source == strToLower p.2.address)).length
      let inbound := (st.edges.filter (fun e => e.target == strToLower p.2.address)).length
      (p.1, { p.2 with outboundCount := outbound, inboundCount := inbound,
                       communicationCount := outbound + inbound })) }

/-- addContracts of communicationGraphBuilder.ts. -/
def commAddContracts (st : CommBuilderState) (contracts : List FetchedContract) :
    CommBuilderState :=
  let st1 := contracts.foldl
    (fun s c => { s with addressToContract := mapSet s.addressToContract (strToLower c.address) c }) st
  let st2 := contracts.foldl
    (fun s c => { s with nodes := mapSet s.nodes (strToLower c.address) (commBuildNode c) }) st1
  let st3 := contracts.foldl analyzeCommunications st2
  updateCommunicationCounts st3

/-- The fixed key list of the pattern histogram of build. -/
def allPatterns : List CommunicationPattern :=
  [.token_transfer, .token_approval, .swap, .liquidity, .stake, .governance,
   .oracle, .bridge, .lending, .nft_mint, .callback, .flash_loan, .generic_call]

/-- The built communication graph.  The generatedAt timestamp is omitted. -/
structure CommunicationGraph where
  nodes : List CommunicationNode
  edges : List CommunicationEdge
  patterns : List (CommunicationPattern × Nat)
  totalContracts : Nat
  totalCommunications : Nat

/-- build of communicationGraphBuilder.ts: the per-pattern increment loop over
the edges equals a count per fixed key. -/
def commBuild (st : CommBuilderState) : CommunicationGraph :=
  { nodes := st.nodes.map (fun p => p.2)
    edges := st.edges
    patterns := allPatterns.map (fun p => (p, (st.edges.filter (fun e => e.pattern == p)).length))
    totalContracts := st.nodes.length
    totalCommunications := st.edges.length }

/-- buildCommunicationGraph of communicationGraphBuilder.ts. -/
def buildCommunicationGraph (contracts : List FetchedContract) : CommunicationGraph :=
  commBuild (commAddContracts emptyCommState contracts)

/-- A communication builder run over a sequence of addContracts calls. -/
def runCommBuilder (calls : List (List FetchedContract)) : CommBuilderState :=
  calls.foldl commAddContracts emptyCommState

/-- The lowercased addresses of every contract handed to a builder across a
sequence of addContracts calls. -/
def addedAddresses (calls : List (List FetchedContract)) : List String :=
  calls.flatten.map (fun c => strToLower c.address)

/-! ### Spec-side role rule list (for the refinement theorem) -/

/-- Modelled from the spec: one rule of the fixed ordered role decision list,
a predicate over the lowercased function-name set and the lowercased contract
name, paired with the role it assigns. -/
structure RoleRule where
  applies : List (Option String) → String → Bool
  role : ContractRole

/-- Modelled from the spec: the fixed ordered decision list token, dex,
router (name-only fallback), factory, lending, vault, governance, oracle,
bridge, proxy, multisig, each rule a disjunction of a function-name-set
predicate or a substring match on the lowercased name; a contract matching no
rule is unknown. -/
def specRoleRules : List RoleRule :=
  [⟨fun fns name => hasERC20Functions fns || strContains name "token", .token⟩,
   ⟨fun fns name => hasDEXFunctions fns || strContains name "swap" || strContains name "router", .dex⟩,
   ⟨fun _ name => strContains name "router", .router⟩,
   ⟨fun fns name => hasFn fns "createpair" || hasFn fns "createpool" || strContains name "factory", .factory⟩,
   ⟨fun fns name => hasLendingFunctions fns || strContains name "lend" || strContains name "borrow", .lending⟩,
   ⟨fun fns name => hasFn fns "deposit" && hasFn fns "withdraw" && strContains name "vault", .vault⟩,
   ⟨fun fns name => hasGovernanceFunctions fns || strContains name "governance" || strContains name "governor", .governance⟩,
   ⟨fun fns name => hasFn fns "latestanswer" || hasFn fns "getprice" || strContains name "oracle", .oracle⟩,
   ⟨fun fns name => strContains name "bridge" || hasFn fns "sendmessage" || hasFn fns "receivemessage", .bridge⟩,
   ⟨fun fns _ => hasFn fns "implementation" || hasFn fns "upgradeto", .proxy⟩,
   ⟨fun fns name => hasFn fns "submittransaction" || hasFn fns "confirmtransaction" || strContains name "multisig", .multisig⟩]

/-- Modelled from the spec: evaluate an ordered rule list top to bottom and
return the role of the first matching rule, defaulting to unknown. -/
def firstMatchingRole (rules : List RoleRule) (fns : List (Option String)) (name : String) :
    ContractRole :=
  match rules.find? (fun r => r.applies fns name) with
  | some r => r.role
  | none => .unknown

/-! ### Invariant predicates used by the theorems -/

/-- No two code-graph edges share the (source, target, relationshipType)
deduplication key. -/
def EdgeKeyDistinct (es : List ContractEdge) : Prop :=
  es.Pairwise (fun a b =>
    ¬(a.source = b.source ∧ a.target = b.target ∧ a.relationshipType = b.relationshipType))

/-- No two communication edges share the (source, target, pattern)
deduplication key. -/
def CommEdgeKeyDistinct (es : List CommunicationEdge) : Prop :=
  es.Pairwise (fun a b => ¬(a.source = b.source ∧ a.target = b.target ∧ a.pattern = b.pattern))

/-- Every edge of the list has both endpoints in K and no two edges share a
key. -/
def EdgesOk (K : List String) (es : List ContractEdge) : Prop :=
  EdgeKeyDistinct es ∧ ∀ e ∈ es, e.source ∈ K ∧ e.target ∈ K

/-- Communication counterpart of EdgesOk. -/
def CommEdgesOk (K : List String) (es : List CommunicationEdge) : Prop :=
  CommEdgeKeyDistinct es ∧ ∀ e ∈ es, e.source ∈ K ∧ e.target ∈ K

/-- Every edge's bidirectional flag equals the existence of a reverse edge
among the edges that preceded it in the list, i.e. among the edges present at
the moment it was appended. -/
def BidirOk (E : List CommunicationEdge) : Prop :=
  ∀ i, (h : i < E.length) →
    (E.get ⟨i, h⟩).bidirectional =
      checkBidirectional (E.take i) (E.get ⟨i, h⟩).source (E.get ⟨i, h⟩).target

/-- The address keys of the node map of a code builder state. -/
def nodeKeys (st : CodeGraphBuilderState) : List String :=
  st.nodes.map (fun p => p.1)

/-- The address keys of the node map of a communication builder state. -/
def commNodeKeys (st : CommBuilderState) : List String :=
  st.nodes.map (fun p => p.1)

/-! ### Concrete fixtures for witnesses and counterexamples -/

/-- A valid normalized entry used by concrete scenarios. -/
def entryEth1 : ContractEntry :=
  { address := "0xaaaaaaaaaaaaaaaaaaaaaaaaaaaaaaaaaaaaaaaa"
    blockchain := "ethereum", contract_name := "Alpha", protocol := "prot" }

/-- A second valid normalized entry with a different address. -/
def entryEth2 : ContractEntry :=
  { address := "0xbbbbbbbbbbbbbbbbbbbbbbbbbbbbbbbbbbbbbbbb"
    blockchain := "ethereum", contract_name := "Beta", protocol := "prot" }

/-- Counterexample entry whose blockchain field contains a colon. -/
def entryColonA : ContractEntry :=
  { address := "c", blockchain := "a:b", contract_name := "N", protocol := "P" }

/-- Counterexample entry with a different (blockchain, address) pair whose
joined key collides with the previous entry's key. -/
def entryColonB : ContractEntry :=
  { address := "b:c", blockchain := "a", contract_name := "N", protocol := "P" }

/-- File-system oracle with one readable well-formed file and failing reads
everywhere else. -/
def readerC3 : FileReader := fun fp =>
  if fp == "good.json" then .ok [entryEth1] else .error "ENOENT: no such file"

/-- A minimal fetched contract used by the retry scenario. -/
def fetchedAlpha : FetchedContract :=
  { address := "0xaaaaaaaaaaaaaaaaaaaaaaaaaaaaaaaaaaaaaaaa"
    blockchain := "ethereum", chainId := "1", contractName := "Alpha"
    protocol := "prot", sourceCode := "", abi := none, fetchedAt := "", sources := [] }

/-- Attempt outcomes of the retry scenario: two transient failures, then
success on the third attempt. -/
def attemptsScenario : Nat → FetchOutcome := fun n =>
  if n == 0 then .err "timeout of 15000ms exceeded"
  else if n == 1 then .err "socket hang up"
  else .ok fetchedAlpha

/-- Attempt oracle assigning the scenario outcomes to every entry. -/
def worldScenario : AttemptOracle := fun _ => attemptsScenario

/-- The nine-function fungible-token ABI of the spec scenario. -/
def erc20Abi : List ABIItem :=
  [{ type := .function, name := some "name" },
   { type := .function, name := some "symbol" },
   { type := .function, name := some "decimals" },
   { type := .function, name := some "totalSupply" },
   { type := .function, name := some "balanceOf" },
   { type := .function, name := some "transfer" },
   { type := .function, name := some "approve" },
   { type := .function, name := some "allowance" },
   { type := .function, name := some "transferFrom" }]

/-- A fetched contract carrying the fungible-token ABI under a neutral name. -/
def tokenContract : FetchedContract :=
  { address := "0xcccccccccccccccccccccccccccccccccccccccc"
    blockchain := "ethereum", chainId := "1", contractName := "USD Coin"
    protocol := "stable", sourceCode := "", abi := some erc20Abi, fetchedAt := ""
    sources := [] }

/-- Extractors returning nothing, used by concrete code-graph scenarios. -/
def trivialExtractors : SourceExtractors :=
  { extractInterfacesFromSource := fun _ => []
    extractInheritance := fun _ => []
    extractExternalCalls := fun _ => []
    extractImports := fun _ => [] }

/-- First contract of the same-protocol scenario. -/
def protoContract1 : FetchedContract :=
  { address := "0xaaaaaaaaaaaaaaaaaaaaaaaaaaaaaaaaaaaaaaaa"
    blockchain := "ethereum", chainId := "1", contractName := "Alpha"
    protocol := "prot", sourceCode := "", abi := none, fetchedAt := "", sources := [] }

/-- Second contract of the same-protocol scenario. -/
def protoContract2 : FetchedContract :=
  { address := "0xbbbbbbbbbbbbbbbbbbbbbbbbbbbbbbbbbbbbbbbb"
    blockchain := "ethereum", chainId := "1", contractName := "Beta"
    protocol := "prot", sourceCode := "", abi := none, fetchedAt := "", sources := [] }

/-- The same-protocol edge produced by the scenario. -/
def sameProtocolEdge : ContractEdge :=
  { source := "0xaaaaaaaaaaaaaaaaaaaaaaaaaaaaaaaaaaaaaaaa"
    target := "0xbbbbbbbbbbbbbbbbbbbbbbbbbbbbbbbbbbbbbbbb"
    relationshipType := .same_protocol }

/-- Contract Alpha of the mutual-reference scenario: its source text mentions
Beta's address. -/
def mutualA : FetchedContract :=
  { address := "0xaaaaaaaaaaaaaaaaaaaaaaaaaaaaaaaaaaaaaaaa"
    blockchain := "ethereum", chainId := "1", contractName := "Alpha"
    protocol := "prot", sourceCode := "", abi := none, fetchedAt := ""
    sources := [{ filename := "Alpha.sol"
                  content := "address constant other = 0xbbbbbbbbbbbbbbbbbbbbbbbbbbbbbbbbbbbbbbbb;" }] }

/-- Contract Beta of the mutual-reference scenario: its source text mentions
Alpha's address. -/
def mutualB : FetchedContract :=
  { address := "0xbbbbbbbbbbbbbbbbbbbbbbbbbbbbbbbbbbbbbbbb"
    blockchain := "ethereum", chainId := "1", contractName := "Beta"
    protocol := "prot", sourceCode := "", abi := none, fetchedAt := ""
    sources := [{ filename := "Beta.sol"
                  content := "address constant other = 0xaaaaaaaaaaaaaaaaaaaaaaaaaaaaaaaaaaaaaaaa;" }] }

/-- The communication edge from Alpha to Beta of the scenario. -/
def mutualEdgeAB (bidir : Bool) : CommunicationEdge :=
  { source := "0xaaaaaaaaaaaaaaaaaaaaaaaaaaaaaaaaaaaaaaaa"
    target := "0xbbbbbbbbbbbbbbbbbbbbbbbbbbbbbbbbbbbbbbbb"
    pattern := .generic_call, functions := [], events := [], bidirectional := bidir }

/-- The communication edge from Beta to Alpha of the scenario. -/
def mutualEdgeBA (bidir : Bool) : CommunicationEdge :=
  { source := "0xbbbbbbbbbbbbbbbbbbbbbbbbbbbbbbbbbbbbbbbb"
    target := "0xaaaaaaaaaaaaaaaaaaaaaaaaaaaaaaaaaaaaaaaa"
    pattern := .generic_call, functions := [], events := [], bidirectional := bidir }

/-! ### Loader lemmas and theorems -/

theorem removeDuplicatesAux_sublist (seen : List String) (l : List ContractEntry) :
    (removeDuplicatesAux seen l).Sublist l := by
  induction l generalizing seen with
  | nil => simp [removeDuplicatesAux]
  | cons c rest ih =>
      by_cases h : dupKey c ∈ seen
      · simpa [removeDuplicatesAux, h] using (ih seen).cons c
      · simpa [removeDuplicatesAux, h] using (ih (dupKey c :: seen)).cons₂ c

theorem removeDuplicatesAux_keys (seen : List String) (l : List ContractEntry) :
    ((removeDuplicatesAux seen l).map dupKey).Nodup ∧
      ∀ k ∈ (removeDuplicatesAux seen l).map dupKey, k ∉ seen := by
  induction l generalizing seen with
  | nil => simp [removeDuplicatesAux]
  | cons c rest ih =>
      by_cases h : dupKey c ∈ seen
      · simpa [removeDuplicatesAux, h] using ih seen
      · have h2 := ih (dupKey c :: seen)
        simp only [removeDuplicatesAux, h, if_false, List.map_cons, List.nodup_cons,
          List.mem_cons]
        refine ⟨⟨fun hmem => (h2.2 _ hmem) (List.mem_cons_self _ _), h2.1⟩, ?_⟩
        rintro k (rfl | hk)
        · exact h
        · exact fun hks => h2.2 k hk (List.mem_cons_of_mem _ hks)

theorem removeDuplicatesAux_find? (seen : List String) (l : List ContractEntry) (k : String) :
    (removeDuplicatesAux seen l).find? (fun e => dupKey e == k) =
      if k ∈ seen then none else l.find? (fun e => dupKey e == k) := by
  induction l generalizing seen with
  | nil => simp [removeDuplicatesAux]
  | cons c rest ih =>
      by_cases hc : dupKey c ∈ seen
      · rw [removeDuplicatesAux, if_pos hc, ih]
        by_cases hk : k ∈ seen
        · simp [hk]
        · have hck : (dupKey c == k) = false := by
            rw [beq_eq_false_iff_ne]
            rintro rfl
            exact hk hc
          simp [hk, List.find?_cons, hck]
      · rw [removeDuplicatesAux, if_neg hc]
        cases hck : (dupKey c == k) with
        | true =>
            have hkc : k = dupKey c := (eq_of_beq hck).symm
            subst hkc
            simp [List.find?_cons, hck, hc]
        | false =>
            have hne : k ≠ dupKey c := by
              rintro rfl
              simp at hck
            simp only [List.find?_cons, hck, ih]
            by_cases hk : k ∈ seen <;> simp [hk, List.mem_cons, hne]

theorem find?_congr_on {α : Type} (l : List α) (p q : α → Bool) (h : ∀ a ∈ l, p a = q a) :
    l.find? p = l.find? q := by
  induction l with
  | nil => rfl
  | cons a as ih =>
      have ha := h a (List.mem_cons_self a as)
      simp only [List.find?_cons, ha]
      cases q a with
      | true => rfl
      | false => exact ih (fun x hx => h x (List.mem_cons_of_mem _ hx))

theorem sep_split (l1 : List Char) : ∀ (l2 r1 r2 : List Char),
    (':' : Char) ∉ l1 → (':' : Char) ∉ l2 →
    l1 ++ ':' :: r1 = l2 ++ ':' :: r2 → l1 = l2 ∧ r1 = r2 := by
  induction l1 with
  | nil =>
      intro l2 r1 r2 _ h2 heq
      cases l2 with
      | nil => simpa using heq
      | cons b bs =>
          simp only [List.nil_append, List.cons_append, List.cons.injEq] at heq
          exact absurd (heq.1 ▸ List.mem_cons_self b bs) h2
  | cons a as ih =>
      intro l2 r1 r2 h1 h2 heq
      cases l2 with
      | nil =>
          simp only [List.nil_append, List.cons_append, List.cons.injEq] at heq
          exact absurd (heq.1.symm ▸ List.mem_cons_self a as) h1
      | cons b bs =>
          simp only [List.cons_append, List.cons.injEq] at heq
          obtain ⟨hab, htail⟩ := heq
          have h1' : (':' : Char) ∉ as := fun hm => h1 (List.mem_cons_of_mem _ hm)
          have h2' : (':' : Char) ∉ bs := fun hm => h2 (List.mem_cons_of_mem _ hm)
          obtain ⟨he, hr⟩ := ih bs r1 r2 h1' h2' htail
          exact ⟨by rw [hab, he], hr⟩

theorem str_data_append (s t : String) : (s ++ t).data = s.data ++ t.data := by
  cases s
  cases t
  rfl

theorem dupKey_inj_of_colon_free (e1 e2 : ContractEntry)
    (h1 : (':' : Char) ∉ e1.blockchain.data) (h2 : (':' : Char) ∉ e2.blockchain.data)
    (h : dupKey e1 = dupKey e2) :
    e1.blockchain = e2.blockchain ∧ e1.address = e2.address := by
  have hd := congrArg String.data h
  simp only [dupKey, str_data_append] at hd
  have hd' : e1.blockchain.data ++ ':' :: e1.address.data =
      e2.blockchain.data ++ ':' :: e2.address.data := by
    simpa using hd
  obtain ⟨hb, ha⟩ := sep_split _ _ _ _ h1 h2 hd'
  exact ⟨congrArg String.mk hb, congrArg String.mk ha⟩

/-- C8 (amended): removeDuplicates deduplicates by the joined string key
blockchain colon address: the output is a subsequence of the input (hence
order-preserving and no longer), carries pairwise-distinct joined keys (hence
at most one entry per (blockchain, address) pair), and the first entry with a
given joined key is exactly the first such entry of the input; when no
blockchain contains a colon (true of every recognized chain key) the entry
that first carries a given (blockchain, address) pair is kept. -/
theorem removeDuplicates_amended (l : List ContractEntry) :
    (removeDuplicates l).Sublist l
    ∧ (removeDuplicates l).length ≤ l.length
    ∧ ((removeDuplicates l).map dupKey).Nodup
    ∧ (removeDuplicates l).Pairwise
        (fun a b => ¬(a.blockchain = b.blockchain ∧ a.address = b.address))
    ∧ (∀ k : String,
        (removeDuplicates l).find? (fun e => dupKey e == k) =
          l.find? (fun e => dupKey e == k))
    ∧ ((∀ x ∈ l, (':' : Char) ∉ x.blockchain.data) →
        ∀ (l₁ : List ContractEntry) (e : ContractEntry) (l₂ : List ContractEntry),
          l = l₁ ++ e :: l₂ →
          (∀ x ∈ l₁, ¬(x.blockchain = e.blockchain ∧ x.address = e.address)) →
          e ∈ removeDuplicates l) := by
  have hsub := removeDuplicatesAux_sublist [] l
  have hkeys := (removeDuplicatesAux_keys [] l).1
  have hfind := fun k => by
    simpa using removeDuplicatesAux_find? [] l k
  refine ⟨hsub, hsub.length_le, hkeys, ?_, hfind, ?_⟩
  · have hpw := (List.pairwise_map.1 hkeys)
    exact hpw.imp (fun {a b} hne ⟨hbl, had⟩ => hne (by simp [dupKey, hbl, had]))
  · intro hfree l₁ e l₂ hdecomp hfirst
    have hmemE : e ∈ l := by
      rw [hdecomp]
      exact List.mem_append_right _ (List.mem_cons_self _ _)
    have hfind_l : l.find? (fun x => dupKey x == dupKey e) = some e := by
      rw [hdecomp, List.find?_append]
      have h₁ : l₁.find? (fun x => dupKey x == dupKey e) = none := by
        rw [List.find?_eq_none]
        intro x hx
        simp only [beq_iff_eq]
        intro hEq
        have hx' := hfree x (by rw [hdecomp]; exact List.mem_append_left _ hx)
        have he' := hfree e hmemE
        exact hfirst x hx (dupKey_inj_of_colon_free x e hx' he' hEq)
      rw [h₁]
      simp [List.find?_cons]
    exact List.mem_of_find?_eq_some ((hfind (dupKey e)).trans hfind_l)

/-- C8 counterexample: on the two-entry input below, whose (blockchain,
address) pairs are distinct but whose joined keys collide by way of a colon in
a blockchain field, the second entry is the first occurrence of its own
(blockchain, address) key and is nevertheless dropped, so the claim as stated
fails. -/
theorem removeDuplicates_counterexample :
    removeDuplicates [entryColonA, entryColonB] = [entryColonA]
    ∧ ¬(entryColonB.blockchain = entryColonA.blockchain ∧
        entryColonB.address = entryColonA.address)
    ∧ entryColonB ∉ removeDuplicates [entryColonA, entryColonB] := by
  decide

/-- Witness: removeDuplicates_amended applied to a concrete two-entry list
keeps the first occurrence of the second pair. -/
theorem removeDuplicates_witness :
    entryEth2 ∈ removeDuplicates [entryEth1, entryEth2] :=
  (removeDuplicates_amended [entryEth1, entryEth2]).2.2.2.2.2
    (by decide) [entryEth1] entryEth2 [] rfl (by decide)

/-- C3 (amended): per-file load-error isolation holds in the CLI runner's
input-loading loop, which catches each file's error and returns the
concatenated entries of every readable well-formed file; the
loadContractsFromFiles helper itself does not isolate errors: it raises the
error of the first failing file (and otherwise returns the same
concatenation). -/
theorem input_file_isolation_amended (read : FileReader) (files : List String) :
    cliLoadInputFiles read files =
      (files.filterMap (fun fp => (loadContractsFromFile read fp).toOption)).flatten
    ∧ loadContractsFromFiles read files =
        (match files.find? (fun fp => !(loadContractsFromFile read fp).toOption.isSome) with
         | some fp => loadContractsFromFile read fp
         | none =>
             .ok ((files.filterMap (fun fp => (loadContractsFromFile read fp).toOption)).flatten)) := by
  induction files with
  | nil => exact ⟨rfl, rfl⟩
  | cons fp rest ih =>
      cases hfp : loadContractsFromFile read fp with
      | ok cs =>
          have hpred : (!(loadContractsFromFile read fp).toOption.isSome) = false := by
            simp [hfp, Except.toOption]
          constructor
          · simp [cliLoadInputFiles, hfp, ih.1, Except.toOption]
          · have hfind :
                List.find? (fun fp => !(loadContractsFromFile read fp).toOption.isSome) (fp :: rest)
                  = List.find? (fun fp => !(loadContractsFromFile read fp).toOption.isSome) rest :=
              List.find?_cons_of_neg _ (by simp [hfp, Except.toOption])
            rw [hfind]
            cases hrest : rest.find?
                (fun fp => !(loadContractsFromFile read fp).toOption.isSome) with
            | some fq =>
                have h2 : loadContractsFromFiles read rest = loadContractsFromFile read fq := by
                  have h0 := ih.2
                  rw [hrest] at h0
                  simpa using h0
                have hfqp := List.find?_some hrest
                cases hq : loadContractsFromFile read fq with
                | ok _ => simp [hq, Except.toOption] at hfqp
                | error m =>
                    rw [hq] at h2
                    show loadContractsFromFiles read (fp :: rest) = loadContractsFromFile read fq
                    rw [hq]
                    simp only [loadContractsFromFiles, hfp, h2]
            | none =>
                have h2 : loadContractsFromFiles read rest =
                    .ok ((rest.filterMap (fun fp => (loadContractsFromFile read fp).toOption)).flatten) := by
                  have h0 := ih.2
                  rw [hrest] at h0
                  simpa using h0
                show loadContractsFromFiles read (fp :: rest) =
                  .ok (((fp :: rest).filterMap
                    (fun fp => (loadContractsFromFile read fp).toOption)).flatten)
                simp only [loadContractsFromFiles, hfp, h2, List.filterMap_cons,
                  List.flatten_cons, Except.toOption]
      | error msg =>
          have hpred : (!(loadContractsFromFile read fp).toOption.isSome) = true := by
            simp [hfp, Except.toOption]
          constructor
          · simp [cliLoadInputFiles, hfp, ih.1, Except.toOption]
          · have hfind :
                List.find? (fun fp => !(loadContractsFromFile read fp).toOption.isSome) (fp :: rest)
                  = some fp :=
              List.find?_cons_of_pos _ hpred
            rw [hfind]
            show loadContractsFromFiles read (fp :: rest) = loadContractsFromFile read fp
            rw [hfp]
            simp only [loadContractsFromFiles, hfp]

/-- C3 counterexample: a list of one readable well-formed file (holding one
valid entry) and one unreadable file; loadContractsFromFiles raises the
unreadable file's error and returns none of the readable file's entries. -/
theorem loadContractsFromFiles_counterexample :
    loadContractsFromFile readerC3 "good.json" = .ok [entryEth1]
    ∧ loadContractsFromFiles readerC3 ["good.json", "bad.json"] =
        .error "Failed to load contracts from bad.json: ENOENT: no such file"
    ∧ (loadContractsFromFiles readerC3 ["good.json", "bad.json"]).toOption = none :=
  ⟨rfl, rfl, rfl⟩

/-! ### Fetcher lemmas and theorems -/

theorem range_pow_shift (d a k : Nat) :
    (List.range (k + 1)).map (fun i => d * 2 ^ (a + i)) =
      d * 2 ^ a :: (List.range k).map (fun i => d * 2 ^ (a + 1 + i)) := by
  rw [List.range_succ_eq_map]
  simp only [List.map_cons, Nat.add_zero, List.map_map]
  refine congrArg _ ?_
  apply List.map_congr_left
  intro i _
  simp only [Function.comp_apply]
  have heq : a + 1 + i = a + Nat.succ i := by omega
  rw [heq]

theorem retryLoop_ok (d : Nat) (f : Nat → FetchOutcome) (v : FetchedContract) :
    ∀ (k rem a : Nat) (last : Option String), k < rem →
      (∀ i, i < k → ∃ m, f (a + i) = .err m ∧ isNonRetryable m = false) →
      f (a + k) = .ok v →
      retryLoop d f rem a last = ((List.range k).map (fun i => d * 2 ^ (a + i)), .ok v) := by
  intro k
  induction k with
  | zero =>
      intro rem a last hlt hprev hk
      obtain ⟨r, rfl⟩ : ∃ r, rem = r + 1 := ⟨rem - 1, by omega⟩
      rw [Nat.add_zero] at hk
      simp [retryLoop, hk]
  | succ k ih =>
      intro rem a last hlt hprev hk
      obtain ⟨r, rfl⟩ : ∃ r, rem = r + 1 := ⟨rem - 1, by omega⟩
      obtain ⟨m0, hm0, hm0n⟩ := hprev 0 (Nat.succ_pos k)
      rw [Nat.add_zero] at hm0
      have hr : r > 0 := by omega
      have htail := ih r (a + 1) (some m0) (by omega)
        (fun i hi => by
          have h := hprev (i + 1) (by omega)
          have heq : a + (i + 1) = a + 1 + i := by omega
          rwa [heq] at h)
        (by
          have heq : a + (k + 1) = a + 1 + k := by omega
          rwa [heq] at hk)
      simp only [retryLoop, hm0, hm0n, Bool.false_eq_true, if_false, hr, if_pos, htail]
      rw [range_pow_shift]

theorem retryLoop_terminal (d : Nat) (f : Nat → FetchOutcome) (m : String) :
    ∀ (k rem a : Nat) (last : Option String), k < rem →
      (∀ i, i < k → ∃ m', f (a + i) = .err m' ∧ isNonRetryable m' = false) →
      f (a + k) = .err m → isNonRetryable m = true →
      retryLoop d f rem a last =
        ((List.range k).map (fun i => d * 2 ^ (a + i)), .error (some m)) := by
  intro k
  induction k with
  | zero =>
      intro rem a last hlt hprev hk hterm
      obtain ⟨r, rfl⟩ : ∃ r, rem = r + 1 := ⟨rem - 1, by omega⟩
      rw [Nat.add_zero] at hk
      simp [retryLoop, hk, hterm]
  | succ k ih =>
      intro rem a last hlt hprev hk hterm
      obtain ⟨r, rfl⟩ : ∃ r, rem = r + 1 := ⟨rem - 1, by omega⟩
      obtain ⟨m0, hm0, hm0n⟩ := hprev 0 (Nat.succ_pos k)
      rw [Nat.add_zero] at hm0
      have hr : r > 0 := by omega
      have htail := ih r (a + 1) (some m0) (by omega)
        (fun i hi => by
          have h := hprev (i + 1) (by omega)
          have heq : a + (i + 1) = a + 1 + i := by omega
          rwa [heq] at h)
        (by
          have heq : a + (k + 1) = a + 1 + k := by omega
          rwa [heq] at hk)
        hterm
      simp only [retryLoop, hm0, hm0n, Bool.false_eq_true, if_false, hr, if_pos, htail]
      rw [range_pow_shift]

theorem retryLoop_exhaust (d : Nat) (f : Nat → FetchOutcome) (m : String) :
    ∀ (rem a : Nat) (last : Option String), 0 < rem →
      (∀ i, i < rem → ∃ m', f (a + i) = .err m' ∧ isNonRetryable m' = false) →
      f (a + (rem - 1)) = .err m →
      retryLoop d f rem a last =
        ((List.range (rem - 1)).map (fun i => d * 2 ^ (a + i)), .error (some m)) := by
  intro rem
  induction rem with
  | zero => omega
  | succ r ih =>
      intro a last _ hall hlast
      rcases Nat.eq_zero_or_pos r with hz | hpos
      · subst hz
        rw [Nat.add_zero] at hlast
        obtain ⟨m', hm', hmn⟩ := hall 0 (by omega)
        rw [Nat.add_zero] at hm'
        have hmm : m' = m := by
          rw [hm'] at hlast
          injection hlast
        subst hmm
        simp [retryLoop, hm', hmn]
      · obtain ⟨m0, hm0, hm0n⟩ := hall 0 (by omega)
        rw [Nat.add_zero] at hm0
        have hstep : retryLoop d f (r + 1) a last =
            (d * 2 ^ a :: (retryLoop d f r (a + 1) (some m0)).1,
             (retryLoop d f r (a + 1) (some m0)).2) := by
          simp only [retryLoop, hm0, hm0n, Bool.false_eq_true, if_false, hpos, if_pos]
        have htail := ih (a + 1) (some m0) hpos
          (fun i hi => by
            have h := hall (i + 1) (by omega)
            have heq : a + (i + 1) = a + 1 + i := by omega
            rwa [heq] at h)
          (by
            have heq : a + (r + 1 - 1) = a + 1 + (r - 1) := by omega
            rwa [heq] at hlast)
        rw [hstep, htail]
        have hrr : r + 1 - 1 = (r - 1) + 1 := by omega
        rw [hrr, range_pow_shift]

/-- C1: the per-contract retry policy.  With d the base delay, mr the retry
limit and k transient failures leading up to attempt k (k below mr):
a non-retryable failure (message mentioning not found or not verified) at
attempt k is raised immediately, with exactly the k earlier backoff delays
d * 2 ^ i performed and no further attempt consulted; a success at attempt k
returns that value after the same delays; when attempt k = mr - 1 fails with
a retryable error the loop raises that last error after mr - 1 backoffs; and
a batch containing just that entry, when its fetch succeeds on attempt k,
yields the fetched value with no failed-address entry recorded. -/
theorem retry_policy_spec (d mr k : Nat) (f : Nat → FetchOutcome) (m : String)
    (v : FetchedContract) (hk : k < mr)
    (hprev : ∀ i, i < k → ∃ m', f i = .err m' ∧ isNonRetryable m' = false) :
    (f k = .err m → isNonRetryable m = true →
       fetchContractWithRetry d mr f =
         ((List.range k).map (fun i => d * 2 ^ i), .error (some m)))
    ∧ (f k = .ok v →
       fetchContractWithRetry d mr f = ((List.range k).map (fun i => d * 2 ^ i), .ok v))
    ∧ (k = mr - 1 → f k = .err m → isNonRetryable m = false →
       fetchContractWithRetry d mr f =
         ((List.range k).map (fun i => d * 2 ^ i), .error (some m)))
    ∧ (∀ (w : AttemptOracle) (e : ContractEntry), w e = f → f k = .ok v →
       processBatch d mr w [e] = ([v], [])) := by
  have hprev0 : ∀ i, i < k → ∃ m', f (0 + i) = .err m' ∧ isNonRetryable m' = false := by
    intro i hi
    rw [Nat.zero_add]
    exact hprev i hi
  have hmapeq : (List.range k).map (fun i => d * 2 ^ (0 + i)) =
      (List.range k).map (fun i => d * 2 ^ i) := by
    apply List.map_congr_left
    intro i _
    rw [Nat.zero_add]
  have hok : f k = .ok v →
      fetchContractWithRetry d mr f = ((List.range k).map (fun i => d * 2 ^ i), .ok v) := by
    intro hk0
    have h := retryLoop_ok d f v k mr 0 none hk hprev0 (by rwa [Nat.zero_add])
    rwa [hmapeq] at h
  refine ⟨?_, hok, ?_, ?_⟩
  · intro hk0 hterm
    have h := retryLoop_terminal d f m k mr 0 none hk hprev0 (by rwa [Nat.zero_add]) hterm
    rwa [hmapeq] at h
  · intro hklast hk0 htrans
    have hall : ∀ i, i < mr → ∃ m', f (0 + i) = .err m' ∧ isNonRetryable m' = false := by
      intro i hi
      rw [Nat.zero_add]
      by_cases hik : i < k
      · exact hprev i hik
      · have hik' : i = k := by omega
        subst hik'
        exact ⟨m, hk0, htrans⟩
    have h := retryLoop_exhaust d f m mr 0 none (by omega) hall
      (by rw [Nat.zero_add, ← hklast]; exact hk0)
    rw [← hklast] at h
    rwa [hmapeq] at h
  · intro w e hw hk0
    have h := hok hk0
    simp only [processBatch, hw, h]

/-- Witness: two transient failures then success on the third attempt with
maxRetries three yields the success value after backoffs of 100 and 200
milliseconds, and the batch records no failed address. -/
theorem retry_policy_witness :
    fetchContractWithRetry 100 3 attemptsScenario =
      ((List.range 2).map (fun i => 100 * 2 ^ i), .ok fetchedAlpha)
    ∧ processBatch 100 3 worldScenario [entryEth1] = ([fetchedAlpha], []) := by
  have hprev : ∀ i, i < 2 → ∃ m', attemptsScenario i = .err m' ∧ isNonRetryable m' = false := by
    intro i hi
    interval_cases i
    · exact ⟨"timeout of 15000ms exceeded", rfl, by decide⟩
    · exact ⟨"socket hang up", rfl, by decide⟩
  have h := retry_policy_spec 100 3 2 attemptsScenario "x" fetchedAlpha (by omega) hprev
  exact ⟨h.2.1 rfl, h.2.2.2 worldScenario entryEth1 rfl rfl⟩

/-- C2: processBatch is exactly the per-entry composition of the retried
fetch: its successful results are the fetched values of the entries whose
fetch succeeded (in order), and its failed-address records are the addresses
of the entries whose fetch ultimately failed (in order).  In particular a
failing contract contributes its address to the failed list and nothing to
the results, and the outcome for every other entry of the batch is unchanged
by it. -/
theorem batch_failure_isolation (d mr : Nat) (world : AttemptOracle)
    (batch : List ContractEntry) :
    processBatch d mr world batch =
      (batch.filterMap (fetchValue? d mr world),
       (batch.filter (fun e => !fetchSucceeded d mr world e)).map (fun e => e.address)) := by
  induction batch with
  | nil => rfl
  | cons e rest ih =>
      cases hr : (fetchContractWithRetry d mr (world e)).2 with
      | ok v =>
          simp [processBatch, ih, hr, fetchValue?, fetchSucceeded, List.filterMap_cons,
            List.filter_cons]
      | error msg =>
          simp [processBatch, ih, hr, fetchValue?, fetchSucceeded, List.filterMap_cons,
            List.filter_cons]

/-! ### ABI extractor and role classification theorems -/

theorem all_congr_on {α : Type} {xs : List α} {f g : α → Bool}
    (hfg : ∀ x ∈ xs, f x = g x) : xs.all f = xs.all g := by
  induction xs with
  | nil => rfl
  | cons y ys ih =>
      simp only [List.all_cons, hfg y (List.mem_cons_self y ys)]
      rw [ih (fun z hz => hfg z (List.mem_cons_of_mem _ hz))]

/-- C9: fungible-token detection is a superset test on the set of function
names.  When every required name occurs among the ABI's function names the
detection returns true; removing every function carrying any one required
name makes it return false; and the result depends only on the set of
function names, so parameter types are never consulted. -/
theorem erc20_detection_name_set (abi : List ABIItem) (r : String) :
    ((∀ fn ∈ erc20Required, (some fn) ∈ abiFunctionNames abi) → isERC20 abi = true)
    ∧ (r ∈ erc20Required →
        isERC20 (abi.filter (fun i => !(i.type == ABIType.function && i.name == some r))) = false)
    ∧ (∀ abi' : List ABIItem,
        (∀ s : String, ((some s) ∈ abiFunctionNames abi) ↔ ((some s) ∈ abiFunctionNames abi')) →
        isERC20 abi = isERC20 abi') := by
  refine ⟨?_, ?_, ?_⟩
  · intro h
    simp only [isERC20, List.all_eq_true]
    intro fn hfn
    exact List.elem_eq_true_of_mem (h fn hfn)
  · intro hr
    rw [isERC20, List.all_eq_false]
    refine ⟨r, hr, ?_⟩
    intro hcont
    have hmem := List.mem_of_elem_eq_true hcont
    simp only [abiFunctionNames, List.mem_map, List.mem_filter] at hmem
    obtain ⟨item, ⟨⟨hin, hneg⟩, htype⟩, hname⟩ := hmem
    rw [htype, hname] at hneg
    simp at hneg
  · intro abi' h
    simp only [isERC20]
    apply all_congr_on
    intro fn _
    rw [Bool.eq_iff_iff]
    constructor
    · intro hc
      exact List.elem_eq_true_of_mem ((h fn).1 (List.mem_of_elem_eq_true hc))
    · intro hc
      exact List.elem_eq_true_of_mem ((h fn).2 (List.mem_of_elem_eq_true hc))

/-- Witness: the nine-function fungible-token ABI is detected, and removing
the functions named name flips the detection to false. -/
theorem erc20_detection_witness :
    isERC20 erc20Abi = true
    ∧ isERC20 (erc20Abi.filter
        (fun i => !(i.type == ABIType.function && i.name == some "name"))) = false := by
  have h := erc20_detection_name_set erc20Abi "name"
  exact ⟨h.1 (by decide), h.2.1 (by decide)⟩

theorem firstMatchingRole_cons (p : List (Option String) → String → Bool) (r : ContractRole)
    (rules : List RoleRule) (fns : List (Option String)) (name : String) :
    firstMatchingRole (⟨p, r⟩ :: rules) fns name =
      if p fns name then r else firstMatchingRole rules fns name := by
  simp only [firstMatchingRole, List.find?]
  cases p fns name
  · rfl
  · rfl

theorem firstMatchingRole_nil (fns : List (Option String)) (name : String) :
    firstMatchingRole [] fns name = .unknown := rfl

theorem mem_lowerFunctionNames_of_mem (abi : List ABIItem) (fn : String)
    (h : (some fn) ∈ abiFunctionNames abi) :
    (some (strToLower fn)) ∈ lowerFunctionNames abi := by
  simp only [abiFunctionNames, List.mem_map] at h
  obtain ⟨item, hitem, hname⟩ := h
  simp only [lowerFunctionNames, List.mem_map]
  exact ⟨item, hitem, by rw [hname]; rfl⟩

/-- C6: role detection evaluates the fixed ordered rule list token, dex,
router, factory, lending, vault, governance, oracle, bridge, proxy,
multisig, unknown top to bottom with first match taken (refinement against
the spec-side rule list), and a contract whose ABI carries the fungible-token
function-name set is classified with role token. -/
theorem role_classification_first_match :
    (∀ c : FetchedContract,
       detectContractRole c =
         firstMatchingRole specRoleRules (lowerFunctionNames (c.abi.getD []))
           (strToLower c.contractName))
    ∧ (∀ (c : FetchedContract) (abi0 : List ABIItem),
        c.abi = some abi0 → isERC20 abi0 = true → detectContractRole c = .token) := by
  constructor
  · intro c
    rw [specRoleRules]
    simp only [firstMatchingRole_cons, firstMatchingRole_nil]
    rfl
  · intro c abi0 habi hisERC
    simp only [isERC20, List.all_eq_true] at hisERC
    have htr := List.mem_of_elem_eq_true (hisERC "transfer" (by decide))
    have hap := List.mem_of_elem_eq_true (hisERC "approve" (by decide))
    have hba := List.mem_of_elem_eq_true (hisERC "balanceOf" (by decide))
    have htr' := mem_lowerFunctionNames_of_mem abi0 "transfer" htr
    have hap' := mem_lowerFunctionNames_of_mem abi0 "approve" hap
    have hba' := mem_lowerFunctionNames_of_mem abi0 "balanceOf" hba
    have e1 : strToLower "transfer" = "transfer" := by decide
    have e2 : strToLower "approve" = "approve" := by decide
    have e3 : strToLower "balanceOf" = "balanceof" := by decide
    rw [e1] at htr'
    rw [e2] at hap'
    rw [e3] at hba'
    have hcond : hasERC20Functions (lowerFunctionNames abi0) = true := by
      simp only [hasERC20Functions, hasFn, Bool.and_eq_true]
      exact ⟨⟨List.elem_eq_true_of_mem htr', List.elem_eq_true_of_mem hap'⟩,
        List.elem_eq_true_of_mem hba'⟩
    simp [detectContractRole, habi, hcond]

/-- Witness: the spec scenario contract carrying the fungible-token ABI under
a neutral name is classified with role token. -/
theorem role_classification_witness :
    detectContractRole tokenContract = ContractRole.token :=
  role_classification_first_match.2 tokenContract erc20Abi rfl (by decide)

/-- C10: the router role is unreachable: the only condition of the router
rule, a lowercased name containing router, is a disjunct of the earlier dex
rule, so role detection never returns router. -/
theorem role_never_router (c : FetchedContract) :
    detectContractRole c ≠ ContractRole.router := by
  intro hcontra
  simp only [detectContractRole] at hcontra
  set fns := lowerFunctionNames (c.abi.getD []) with hfns
  set name := strToLower c.contractName with hname
  by_cases h1 : (hasERC20Functions fns || strContains name "token") = true
  · rw [if_pos h1] at hcontra
    exact ContractRole.noConfusion hcontra
  · rw [if_neg h1] at hcontra
    by_cases h2 : (hasDEXFunctions fns || strContains name "swap" ||
        strContains name "router") = true
    · rw [if_pos h2] at hcontra
      exact ContractRole.noConfusion hcontra
    · rw [if_neg h2] at hcontra
      by_cases h3 : strContains name "router" = true
      · exact h2 (by rw [h3]; simp)
      · rw [if_neg h3] at hcontra
        by_cases h4 : (hasFn fns "createpair" || hasFn fns "createpool" ||
            strContains name "factory") = true
        · rw [if_pos h4] at hcontra
          exact ContractRole.noConfusion hcontra
        · rw [if_neg h4] at hcontra
          by_cases h5 : (hasLendingFunctions fns || strContains name "lend" ||
              strContains name "borrow") = true
          · rw [if_pos h5] at hcontra
            exact ContractRole.noConfusion hcontra
          · rw [if_neg h5] at hcontra
            by_cases h6 : (hasFn fns "deposit" && hasFn fns "withdraw" &&
                strContains name "vault") = true
            · rw [if_pos h6] at hcontra
              exact ContractRole.noConfusion hcontra
            · rw [if_neg h6] at hcontra
              by_cases h7 : (hasGovernanceFunctions fns || strContains name "governance" ||
                  strContains name "governor") = true
              · rw [if_pos h7] at hcontra
                exact ContractRole.noConfusion hcontra
              · rw [if_neg h7] at hcontra
                by_cases h8 : (hasFn fns "latestanswer" || hasFn fns "getprice" ||
                    strContains name "oracle") = true
                · rw [if_pos h8] at hcontra
                  exact ContractRole.noConfusion hcontra
                · rw [if_neg h8] at hcontra
                  by_cases h9 : (strContains name "bridge" || hasFn fns "sendmessage" ||
                      hasFn fns "receivemessage") = true
                  · rw [if_pos h9] at hcontra
                    exact ContractRole.noConfusion hcontra
                  · rw [if_neg h9] at hcontra
                    by_cases h10 : (hasFn fns "implementation" || hasFn fns "upgradeto") = true
                    · rw [if_pos h10] at hcontra
                      exact ContractRole.noConfusion hcontra
                    · rw [if_neg h10] at hcontra
                      by_cases h11 : (hasFn fns "submittransaction" ||
                          hasFn fns "confirmtransaction" || strContains name "multisig") = true
                      · rw [if_pos h11] at hcontra
                        exact ContractRole.noConfusion hcontra
                      · rw [if_neg h11] at hcontra
                        exact ContractRole.noConfusion hcontra

/-! ### Code graph edge deduplication -/

theorem hasEdge_addEdge (es : List ContractEdge) (s t : String) (ty : RelationshipType)
    (m : Option EdgeMetadata) : hasEdge (addEdge es s t ty m) s t ty = true := by
  by_cases h : hasEdge es s t ty
  · rw [addEdge, if_pos h]
    exact h
  · rw [addEdge, if_neg h, hasEdge, List.any_eq_true]
    refine ⟨{ source := s, target := t, relationshipType := ty, metadata := m }, ?_, ?_⟩
    · exact List.mem_append_right _ (List.mem_cons_self _ _)
    · simp

/-- C4: a second addEdge call with the same (source, target, relationshipType)
key is a no-op, whatever metadata it carries, so the first edge and its
metadata survive unchanged; and after adding, the number of edges with that
key is exactly one when the state had none and is otherwise unchanged (at most
one on every reachable state). -/
theorem addEdge_dedup_idempotent (es : List ContractEdge) (s t : String)
    (ty : RelationshipType) (m₁ m₂ : Option EdgeMetadata) :
    addEdge (addEdge es s t ty m₁) s t ty m₂ = addEdge es s t ty m₁
    ∧ edgeKeyCount (addEdge (addEdge es s t ty m₁) s t ty m₂) s t ty
        = max (edgeKeyCount es s t ty) 1 := by
  have h1 := hasEdge_addEdge es s t ty m₁
  have hdup : addEdge (addEdge es s t ty m₁) s t ty m₂ = addEdge es s t ty m₁ := by
    rw [addEdge, if_pos h1]
  refine ⟨hdup, ?_⟩
  rw [hdup]
  by_cases h : hasEdge es s t ty
  · have hge : 1 ≤ edgeKeyCount es s t ty := by
      simp only [hasEdge, List.any_eq_true] at h
      obtain ⟨e, he, hpe⟩ := h
      have hmem : e ∈ es.filter
          (fun e => e.source == s && e.target == t && e.relationshipType == ty) :=
        List.mem_filter.2 ⟨he, hpe⟩
      have hne : es.filter
          (fun e => e.source == s && e.target == t && e.relationshipType == ty) ≠ [] :=
        fun hnil => by simp [hnil] at hmem
      exact List.length_pos.2 hne
    rw [addEdge, if_pos h, Nat.max_eq_left hge]
  · have hzero : es.filter
        (fun e => e.source == s && e.target == t && e.relationshipType == ty) = [] := by
      rw [List.filter_eq_nil_iff]
      intro e he hpe
      exact h (by rw [hasEdge, List.any_eq_true]; exact ⟨e, he, hpe⟩)
    have hcount : edgeKeyCount es s t ty = 0 := by
      rw [edgeKeyCount, hzero]
      rfl
    rw [addEdge, if_neg h, edgeKeyCount, List.filter_append, hzero, hcount]
    simp

/-! ### Generic preservation lemmas for the builder invariants -/

theorem foldl_preserve {α β : Type} (Q : β → Prop) (f : β → α → β) :
    ∀ (l : List α), (∀ b x, x ∈ l → Q b → Q (f b x)) → ∀ b, Q b → Q (l.foldl f b) := by
  intro l
  induction l with
  | nil => intro _ b h; exact h
  | cons x xs ih =>
      intro hf b h
      rw [List.foldl_cons]
      exact ih (fun b' y hy => hf b' y (List.mem_cons_of_mem _ hy)) (f b x)
        (hf b x (List.mem_cons_self _ _) h)

theorem mapSet_keys_of_has {β : Type} (m : List (String × β)) (k : String) (v : β)
    (h : m.any (fun p => p.1 == k) = true) :
    (mapSet m k v).map (fun p => p.1) = m.map (fun p => p.1) := by
  rw [mapSet, if_pos h, List.map_map]
  apply List.map_congr_left
  intro p _
  simp only [Function.comp_apply]
  by_cases hp : (p.1 == k) = true
  · rw [if_pos hp]
    exact (eq_of_beq hp).symm
  · rw [if_neg hp]

theorem mapSet_keys_of_not_has {β : Type} (m : List (String × β)) (k : String) (v : β)
    (h : ¬(m.any (fun p => p.1 == k) = true)) :
    (mapSet m k v).map (fun p => p.1) = m.map (fun p => p.1) ++ [k] := by
  rw [mapSet, if_neg h, List.map_append]
  rfl

theorem mapSet_keys_mem {β : Type} (m : List (String × β)) (k k' : String) (v : β) :
    k' ∈ (mapSet m k v).map (fun p => p.1) ↔ k' ∈ m.map (fun p => p.1) ∨ k' = k := by
  by_cases h : m.any (fun p => p.1 == k) = true
  · rw [mapSet_keys_of_has m k v h]
    constructor
    · exact Or.inl
    · rintro (hm | rfl)
      · exact hm
      · rw [List.any_eq_true] at h
        obtain ⟨p, hp, hpe⟩ := h
        exact List.mem_map.2 ⟨p, hp, eq_of_beq hpe⟩
  · rw [mapSet_keys_of_not_has m k v h, List.mem_append, List.mem_singleton]

theorem mapSet_keys_nodup {β : Type} (m : List (String × β)) (k : String) (v : β)
    (h : (m.map (fun p => p.1)).Nodup) : ((mapSet m k v).map (fun p => p.1)).Nodup := by
  by_cases hh : m.any (fun p => p.1 == k) = true
  · rwa [mapSet_keys_of_has m k v hh]
  · rw [mapSet_keys_of_not_has m k v hh]
    rw [List.nodup_append]
    refine ⟨h, List.nodup_singleton k, ?_⟩
    intro a ha hb
    rw [List.mem_singleton] at hb
    subst hb
    rw [List.mem_map] at ha
    obtain ⟨p, hp, hfst⟩ := ha
    apply hh
    rw [List.any_eq_true]
    exact ⟨p, hp, by rw [hfst]; exact beq_self_eq_true _⟩

theorem mem_of_mapSet {β : Type} {m : List (String × β)} {k : String} {v : β} {p : String × β}
    (h : p ∈ mapSet m k v) : p = (k, v) ∨ p ∈ m := by
  rw [mapSet] at h
  by_cases hh : m.any (fun q => q.1 == k) = true
  · rw [if_pos hh] at h
    rw [List.mem_map] at h
    obtain ⟨q, hq, hqe⟩ := h
    by_cases hqk : (q.1 == k) = true
    · rw [if_pos hqk] at hqe
      exact Or.inl hqe.symm
    · rw [if_neg hqk] at hqe
      exact Or.inr (hqe ▸ hq)
  · rw [if_neg hh] at h
    rcases List.mem_append.1 h with h | h
    · exact Or.inr h
    · exact Or.inl (List.mem_singleton.1 h)

theorem mapGet_mem {β : Type} {m : List (String × β)} {k : String} {v : β}
    (h : mapGet m k = some v) : (k, v) ∈ m := by
  rw [mapGet] at h
  cases hf : m.find? (fun p => p.1 == k) with
  | none => rw [hf] at h; cases h
  | some q =>
      rw [hf] at h
      have hq := List.find?_some hf
      have hqm := List.mem_of_find?_eq_some hf
      simp only [Option.map_some'] at h
      have hqe : q = (k, v) := by
        obtain ⟨q1, q2⟩ := q
        simp only at h hq
        rw [Prod.mk.injEq]
        exact ⟨eq_of_beq hq, by injection h⟩
      rwa [hqe] at hqm

theorem mapHas_mem {β : Type} {m : List (String × β)} {k : String}
    (h : mapHas m k = true) : k ∈ m.map (fun p => p.1) := by
  rw [mapHas, List.any_eq_true] at h
  obtain ⟨p, hp, hpe⟩ := h
  exact List.mem_map.2 ⟨p, hp, eq_of_beq hpe⟩

theorem mem_insertUnique {l : List String} {s a : String} (h : a ∈ insertUnique l s) :
    a ∈ l ∨ a = s := by
  rw [insertUnique] at h
  by_cases hs : s ∈ l
  · rw [if_pos hs] at h
    exact Or.inl h
  · rw [if_neg hs] at h
    rcases List.mem_append.1 h with h | h
    · exact Or.inl h
    · exact Or.inr (List.mem_singleton.1 h)

theorem foldl_insertUnique_guard {α : Type} (P : String → Prop) (g : α → String)
    (cond : α → Bool) (hg : ∀ x, cond x = true → P (g x)) :
    ∀ (l : List α) (acc : List String), (∀ a ∈ acc, P a) →
      ∀ a ∈ l.foldl (fun acc m => if cond m then insertUnique acc (g m) else acc) acc, P a := by
  intro l
  induction l with
  | nil => intro acc hacc a ha; exact hacc a ha
  | cons x xs ih =>
      intro acc hacc a ha
      rw [List.foldl_cons] at ha
      by_cases hc : cond x = true
      · rw [if_pos hc] at ha
        refine ih (insertUnique acc (g x)) ?_ a ha
        intro b hb
        rcases mem_insertUnique hb with hb | hb
        · exact hacc b hb
        · rw [hb]
          exact hg x hc
      · rw [if_neg hc] at ha
        exact ih acc hacc a ha

theorem edgesOk_mono (K K' : List String) (hKK : ∀ k ∈ K, k ∈ K') (es : List ContractEdge)
    (h : EdgesOk K es) : EdgesOk K' es :=
  ⟨h.1, fun e he => ⟨hKK _ (h.2 e he).1, hKK _ (h.2 e he).2⟩⟩

theorem edgesOk_addEdge (K : List String) (es : List ContractEdge) (s t : String)
    (ty : RelationshipType) (m : Option EdgeMetadata) (hs : s ∈ K) (ht : t ∈ K)
    (h : EdgesOk K es) : EdgesOk K (addEdge es s t ty m) := by
  rw [addEdge]
  by_cases hh : hasEdge es s t ty = true
  · rwa [if_pos hh]
  · rw [if_neg hh]
    obtain ⟨hpw, hmem⟩ := h
    constructor
    · rw [EdgeKeyDistinct, List.pairwise_append]
      refine ⟨hpw, List.pairwise_singleton _ _, ?_⟩
      intro a ha b hb
      rw [List.mem_singleton] at hb
      subst hb
      rintro ⟨hsrc, htgt, hty⟩
      apply hh
      rw [hasEdge, List.any_eq_true]
      exact ⟨a, ha, by simp [hsrc, htgt, hty]⟩
    · intro e he
      rcases List.mem_append.1 he with he | he
      · exact hmem e he
      · rw [List.mem_singleton] at he
        subst he
        exact ⟨hs, ht⟩

theorem commEdgesOk_mono (K K' : List String) (hKK : ∀ k ∈ K, k ∈ K')
    (es : List CommunicationEdge) (h : CommEdgesOk K es) : CommEdgesOk K' es :=
  ⟨h.1, fun e he => ⟨hKK _ (h.2 e he).1, hKK _ (h.2 e he).2⟩⟩

theorem commEdgesOk_addEdge (K : List String) (es : List CommunicationEdge)
    (e : CommunicationEdge) (hs : e.source ∈ K) (ht : e.target ∈ K)
    (h : CommEdgesOk K es) : CommEdgesOk K (commAddEdge es e) := by
  rw [commAddEdge]
  by_cases hh : (es.any fun x =>
      x.source == e.source && x.target == e.target && x.pattern == e.pattern) = true
  · rwa [if_pos hh]
  · rw [if_neg hh]
    obtain ⟨hpw, hmem⟩ := h
    constructor
    · rw [CommEdgeKeyDistinct, List.pairwise_append]
      refine ⟨hpw, List.pairwise_singleton _ _, ?_⟩
      intro a ha b hb
      rw [List.mem_singleton] at hb
      subst hb
      rintro ⟨hsrc, htgt, hty⟩
      apply hh
      rw [List.any_eq_true]
      exact ⟨a, ha, by simp [hsrc, htgt, hty]⟩
    · intro x hx
      rcases List.mem_append.1 hx with hx | hx
      · exact hmem x hx
      · rw [List.mem_singleton] at hx
        subst hx
        exact ⟨hs, ht⟩

/-! ### Code graph builder invariant lemmas -/

theorem samePush_eq_addEdge (es : List ContractEdge) (ca tgt : String) :
    (if (!hasEdge es ca tgt .same_protocol) = true then
        es ++ [{ source := ca, target := tgt, relationshipType := .same_protocol }]
      else es) = addEdge es ca tgt .same_protocol none := by
  rw [addEdge]
  by_cases h : hasEdge es ca tgt .same_protocol = true
  · rw [if_pos h, if_neg (by simp [h])]
  · rw [if_neg h, if_pos (by simp [h])]

theorem findContractsByName_subset (st : CodeGraphBuilderState) (K : List String) (n : String)
    (hname : ∀ p ∈ st.nameToAddresses, ∀ a ∈ p.2, a ∈ K) :
    ∀ ta ∈ findContractsByName st n, ta ∈ K := by
  intro ta hta
  rw [findContractsByName] at hta
  cases hg : mapGet st.nameToAddresses (strToLower n) with
  | none => rw [hg] at hta; simp at hta
  | some addrs =>
      rw [hg] at hta
      exact hname _ (mapGet_mem hg) ta hta

theorem edgesOk_inner_fold (K : List String) (ca : String) (ty : RelationshipType)
    (mf : Option EdgeMetadata) (targets : List String) (hca : ca ∈ K)
    (htargets : ∀ ta ∈ targets, ta ∈ K) :
    ∀ es, EdgesOk K es →
      EdgesOk K (targets.foldl (fun es ta => if ta != ca then addEdge es ca ta ty mf else es) es) := by
  intro es h
  refine foldl_preserve (EdgesOk K) _ targets ?_ es h
  intro es' ta hta hok
  by_cases hne : (ta != ca) = true
  · rw [if_pos hne]
    exact edgesOk_addEdge K es' ca ta ty mf hca (htargets ta hta) hok
  · rw [if_neg hne]
    exact hok

theorem edgesOk_buildSameProtocolEdges (st : CodeGraphBuilderState) (c : FetchedContract)
    (K : List String) (es0 : List ContractEdge) (hca : strToLower c.address ∈ K)
    (hK : ∀ k ∈ nodeKeys st, k ∈ K) (h : EdgesOk K es0) :
    EdgesOk K (buildSameProtocolEdges st c es0) := by
  simp only [buildSameProtocolEdges]
  refine foldl_preserve (EdgesOk K) _ st.nodes ?_ es0 h
  intro es p hp hok
  by_cases hcnd : (p.1 != strToLower c.address && p.2.protocol == c.protocol) = true
  · rw [if_pos hcnd, samePush_eq_addEdge]
    exact edgesOk_addEdge K es (strToLower c.address) p.1 .same_protocol none hca
      (hK p.1 (List.mem_map.2 ⟨p, hp, rfl⟩)) hok
  · rw [if_neg hcnd]
    exact hok

theorem edgesOk_buildInheritanceEdges (ex : SourceExtractors) (st : CodeGraphBuilderState)
    (c : FetchedContract) (sourceCode : String) (K : List String) (es0 : List ContractEdge)
    (hca : strToLower c.address ∈ K)
    (hname : ∀ p ∈ st.nameToAddresses, ∀ a ∈ p.2, a ∈ K) (h : EdgesOk K es0) :
    EdgesOk K (buildInheritanceEdges ex st c sourceCode es0) := by
  simp only [buildInheritanceEdges]
  refine foldl_preserve (EdgesOk K) _ _ ?_ es0 h
  intro es n _ hok
  exact edgesOk_inner_fold K _ .inherits none _ hca
    (findContractsByName_subset st K n hname) es hok

theorem edgesOk_buildImportEdges (ex : SourceExtractors) (st : CodeGraphBuilderState)
    (c : FetchedContract) (sourceCode : String) (K : List String) (es0 : List ContractEdge)
    (hca : strToLower c.address ∈ K)
    (hname : ∀ p ∈ st.nameToAddresses, ∀ a ∈ p.2, a ∈ K) (h : EdgesOk K es0) :
    EdgesOk K (buildImportEdges ex st c sourceCode es0) := by
  simp only [buildImportEdges]
  refine foldl_preserve (EdgesOk K) _ _ ?_ es0 h
  intro es ip _ hok
  dsimp only
  cases hic : importedContractName ip with
  | some cn =>
      exact edgesOk_inner_fold K _ .imports none _ hca
        (findContractsByName_subset st K cn hname) es hok
  | none => exact hok

theorem edgesOk_buildExternalCallEdges (ex : SourceExtractors) (st : CodeGraphBuilderState)
    (c : FetchedContract) (sourceCode : String) (K : List String) (es0 : List ContractEdge)
    (hca : strToLower c.address ∈ K)
    (hname : ∀ p ∈ st.nameToAddresses, ∀ a ∈ p.2, a ∈ K) (h : EdgesOk K es0) :
    EdgesOk K (buildExternalCallEdges ex st c sourceCode es0) := by
  simp only [buildExternalCallEdges]
  refine foldl_preserve (EdgesOk K) _ _ ?_ es0 h
  intro es call _ hok
  exact edgesOk_inner_fold K _ .calls
    (some { functionName := ((splitOnSep '.' call.data)[1]?).map (fun l => (⟨l⟩ : String)) }) _ hca
    (findContractsByName_subset st K (⟨(splitOnSep '.' call.data).headD []⟩ : String) hname) es hok

theorem edgesOk_buildInterfaceEdges (ex : SourceExtractors) (st : CodeGraphBuilderState)
    (c : FetchedContract) (sourceCode : String) (K : List String) (es0 : List ContractEdge)
    (hca : strToLower c.address ∈ K)
    (hname : ∀ p ∈ st.nameToAddresses, ∀ a ∈ p.2, a ∈ K) (h : EdgesOk K es0) :
    EdgesOk K (buildInterfaceEdges ex st c sourceCode es0) := by
  simp only [buildInterfaceEdges]
  refine foldl_preserve (EdgesOk K) _ _ ?_ es0 h
  intro es n _ hok
  exact edgesOk_inner_fold K _ .uses_interface none _ hca
    (findContractsByName_subset st K n hname) es hok

theorem edgesOk_buildAddressReferenceEdges (st : CodeGraphBuilderState) (c : FetchedContract)
    (sourceCode : String) (K : List String) (es0 : List ContractEdge)
    (hca : strToLower c.address ∈ K) (hK : ∀ k ∈ nodeKeys st, k ∈ K) (h : EdgesOk K es0) :
    EdgesOk K (buildAddressReferenceEdges st c sourceCode es0) := by
  simp only [buildAddressReferenceEdges]
  have hfound : ∀ a ∈ (scanAddresses sourceCode).foldl
      (fun acc m =>
        if strToLower m != strToLower c.address && mapHas st.nodes (strToLower m) then
          insertUnique acc (strToLower m)
        else acc) [], a ∈ K := by
    refine foldl_insertUnique_guard (fun a => a ∈ K) (fun m => strToLower m)
      (fun m => strToLower m != strToLower c.address && mapHas st.nodes (strToLower m)) ?_
      (scanAddresses sourceCode) [] (by simp)
    intro m hm
    rw [Bool.and_eq_true] at hm
    exact hK _ (mapHas_mem hm.2)
  refine foldl_preserve (EdgesOk K) _ _ ?_ es0 h
  intro es ta hta hok
  exact edgesOk_addEdge K es _ ta .calls none hca (hfound ta hta) hok

theorem edgesOk_buildEdgesForContract (ex : SourceExtractors) (st : CodeGraphBuilderState)
    (c : FetchedContract) (K : List String) (hca : strToLower c.address ∈ K)
    (hK : ∀ k ∈ nodeKeys st, k ∈ K)
    (hname : ∀ p ∈ st.nameToAddresses, ∀ a ∈ p.2, a ∈ K) (h : EdgesOk K st.edges) :
    (buildEdgesForContract ex st c).nodes = st.nodes
    ∧ (buildEdgesForContract ex st c).nameToAddresses = st.nameToAddresses
    ∧ EdgesOk K (buildEdgesForContract ex st c).edges := by
  refine ⟨rfl, rfl, ?_⟩
  exact edgesOk_buildAddressReferenceEdges st c _ K _ hca hK
    (edgesOk_buildInterfaceEdges ex st c _ K _ hca hname
      (edgesOk_buildExternalCallEdges ex st c _ K _ hca hname
        (edgesOk_buildImportEdges ex st c _ K _ hca hname
          (edgesOk_buildInheritanceEdges ex st c _ K _ hca hname
            (edgesOk_buildSameProtocolEdges st c K _ hca hK h)))))

theorem foldl_index_state (cs : List FetchedContract) :
    ∀ st : CodeGraphBuilderState,
      (cs.foldl indexContract st).nodes = st.nodes
      ∧ (cs.foldl indexContract st).edges = st.edges := by
  induction cs with
  | nil => intro st; exact ⟨rfl, rfl⟩
  | cons c rest ih =>
      intro st
      rw [List.foldl_cons]
      exact ⟨(ih (indexContract st c)).1, (ih (indexContract st c)).2⟩

theorem foldl_index_nta (P : String → Prop) (cs : List FetchedContract) :
    ∀ st : CodeGraphBuilderState,
      (∀ p ∈ st.nameToAddresses, ∀ a ∈ p.2, P a) →
      (∀ c ∈ cs, P (strToLower c.address)) →
      ∀ p ∈ (cs.foldl indexContract st).nameToAddresses, ∀ a ∈ p.2, P a := by
  induction cs with
  | nil => intro st hst _ p hp; exact hst p hp
  | cons c rest ih =>
      intro st hst hcs
      rw [List.foldl_cons]
      refine ih (indexContract st c) ?_ (fun c' hc' => hcs c' (List.mem_cons_of_mem _ hc'))
      intro p hp a ha
      rcases mem_of_mapSet hp with hpe | hpm
      · subst hpe
        rcases List.mem_append.1 ha with ha | ha
        · cases hg : mapGet st.nameToAddresses (strToLower c.contractName) with
          | none => rw [hg] at ha; simp at ha
          | some vals =>
              rw [hg] at ha
              exact hst _ (mapGet_mem hg) a ha
        · rw [List.mem_singleton] at ha
          rw [ha]
          exact hcs c (List.mem_cons_self _ _)
      · exact hst p hpm a ha

theorem foldl_setNode_state (ex : SourceExtractors) (cs : List FetchedContract) :
    ∀ st : CodeGraphBuilderState,
      (cs.foldl (setNode ex) st).nameToAddresses = st.nameToAddresses
      ∧ (cs.foldl (setNode ex) st).edges = st.edges := by
  induction cs with
  | nil => intro st; exact ⟨rfl, rfl⟩
  | cons c rest ih =>
      intro st
      rw [List.foldl_cons]
      exact ⟨(ih (setNode ex st c)).1, (ih (setNode ex st c)).2⟩

theorem foldl_setNode_keys (ex : SourceExtractors) (cs : List FetchedContract) :
    ∀ (st : CodeGraphBuilderState) (k : String),
      k ∈ nodeKeys (cs.foldl (setNode ex) st) ↔
        k ∈ nodeKeys st ∨ k ∈ cs.map (fun c => strToLower c.address) := by
  induction cs with
  | nil => intro st k; simp
  | cons c rest ih =>
      intro st k
      rw [List.foldl_cons, ih (setNode ex st c) k, List.map_cons, List.mem_cons]
      have hkeys : k ∈ nodeKeys (setNode ex st c) ↔ k ∈ nodeKeys st ∨ k = strToLower c.address :=
        mapSet_keys_mem st.nodes (strToLower c.address) k (buildNode ex c)
      rw [hkeys]
      tauto

theorem foldl_setNode_nodup (ex : SourceExtractors) (cs : List FetchedContract)
    (st : CodeGraphBuilderState) (h : (nodeKeys st).Nodup) :
    (nodeKeys (cs.foldl (setNode ex) st)).Nodup := by
  refine foldl_preserve (fun st => (nodeKeys st).Nodup) (setNode ex) cs ?_ st h
  intro st' c _ h'
  exact mapSet_keys_nodup st'.nodes (strToLower c.address) (buildNode ex c) h'

theorem foldl_setNode_addrfield (ex : SourceExtractors) (cs : List FetchedContract)
    (st : CodeGraphBuilderState) (h : ∀ p ∈ st.nodes, strToLower p.2.address = p.1) :
    ∀ p ∈ (cs.foldl (setNode ex) st).nodes, strToLower p.2.address = p.1 := by
  refine foldl_preserve (fun st => ∀ p ∈ st.nodes, strToLower p.2.address = p.1)
    (setNode ex) cs ?_ st h
  intro st' c _ h' p hp
  rcases mem_of_mapSet hp with hpe | hpm
  · rw [hpe]
    rfl
  · exact h' p hpm

theorem addContracts_inv (ex : SourceExtractors) (st : CodeGraphBuilderState)
    (cs : List FetchedContract) (added : List String)
    (h1 : (nodeKeys st).Nodup)
    (h2 : ∀ p ∈ st.nodes, strToLower p.2.address = p.1)
    (h3 : EdgesOk (nodeKeys st) st.edges)
    (h4 : ∀ p ∈ st.nameToAddresses, ∀ a ∈ p.2, a ∈ nodeKeys st)
    (h5 : ∀ k ∈ nodeKeys st, k ∈ added) :
    (nodeKeys (addContracts ex st cs)).Nodup
    ∧ (∀ p ∈ (addContracts ex st cs).nodes, strToLower p.2.address = p.1)
    ∧ EdgesOk (nodeKeys (addContracts ex st cs)) (addContracts ex st cs).edges
    ∧ (∀ p ∈ (addContracts ex st cs).nameToAddresses, ∀ a ∈ p.2,
        a ∈ nodeKeys (addContracts ex st cs))
    ∧ (∀ k ∈ nodeKeys (addContracts ex st cs),
        k ∈ added ++ cs.map (fun c => strToLower c.address)) := by
  have hst1 := foldl_index_state cs st
  set st1 := cs.foldl indexContract st with hst1def
  have hnta1 : ∀ p ∈ st1.nameToAddresses, ∀ a ∈ p.2,
      a ∈ nodeKeys st ∨ a ∈ cs.map (fun c => strToLower c.address) := by
    refine foldl_index_nta _ cs st ?_ ?_
    · intro p hp a ha
      exact Or.inl (h4 p hp a ha)
    · intro c hc
      exact Or.inr (List.mem_map.2 ⟨c, hc, rfl⟩)
  have hnodes1 : nodeKeys st1 = nodeKeys st := by rw [nodeKeys, nodeKeys, hst1.1]
  have hst2 := foldl_setNode_state ex cs st1
  set st2 := cs.foldl (setNode ex) st1 with hst2def
  have hkeys2 : ∀ k, k ∈ nodeKeys st2 ↔
      k ∈ nodeKeys st ∨ k ∈ cs.map (fun c => strToLower c.address) := by
    intro k
    rw [foldl_setNode_keys ex cs st1 k, hnodes1]
  have hnodup2 : (nodeKeys st2).Nodup :=
    foldl_setNode_nodup ex cs st1 (by rw [hnodes1]; exact h1)
  have haddr2 : ∀ p ∈ st2.nodes, strToLower p.2.address = p.1 :=
    foldl_setNode_addrfield ex cs st1 (by rw [hst1.1]; exact h2)
  have hedges2 : st2.edges = st.edges := by rw [hst2.2, hst1.2]
  have hnta2 : ∀ p ∈ st2.nameToAddresses, ∀ a ∈ p.2, a ∈ nodeKeys st2 := by
    intro p hp a ha
    rw [hkeys2]
    exact hnta1 p (by rwa [hst2.1] at hp) a ha
  have hedgesOk2 : EdgesOk (nodeKeys st2) st2.edges := by
    rw [hedges2]
    refine edgesOk_mono (nodeKeys st) (nodeKeys st2) ?_ st.edges h3
    intro k hk
    exact (hkeys2 k).2 (Or.inl hk)
  have hca2 : ∀ c ∈ cs, strToLower c.address ∈ nodeKeys st2 := by
    intro c hc
    exact (hkeys2 _).2 (Or.inr (List.mem_map.2 ⟨c, hc, rfl⟩))
  have hphase3 : ∀ (l : List FetchedContract), (∀ c ∈ l, c ∈ cs) →
      ∀ s : CodeGraphBuilderState,
        s.nodes = st2.nodes → s.nameToAddresses = st2.nameToAddresses →
        EdgesOk (nodeKeys st2) s.edges →
        (l.foldl (buildEdgesForContract ex) s).nodes = st2.nodes
        ∧ (l.foldl (buildEdgesForContract ex) s).nameToAddresses = st2.nameToAddresses
        ∧ EdgesOk (nodeKeys st2) (l.foldl (buildEdgesForContract ex) s).edges := by
    intro l
    induction l with
    | nil => intro _ s hn hm he; exact ⟨hn, hm, he⟩
    | cons c rest ih =>
        intro hl s hn hm he
        rw [List.foldl_cons]
        have hkeyseq : nodeKeys s = nodeKeys st2 := by rw [nodeKeys, nodeKeys, hn]
        have hstep := edgesOk_buildEdgesForContract ex s c (nodeKeys st2)
          (hca2 c (hl c (List.mem_cons_self _ _)))
          (fun k hk => by rw [hkeyseq] at hk; exact hk)
          (by rw [hm]; exact hnta2)
          he
        exact ih (fun c' hc' => hl c' (List.mem_cons_of_mem _ hc'))
          (buildEdgesForContract ex s c) (hstep.1.trans hn) (hstep.2.1.trans hm) hstep.2.2
  have hfinal := hphase3 cs (fun c hc => hc) st2 rfl rfl hedgesOk2
  have haddeq : addContracts ex st cs = cs.foldl (buildEdgesForContract ex) st2 := rfl
  rw [haddeq]
  have hkeysfinal : nodeKeys (cs.foldl (buildEdgesForContract ex) st2) = nodeKeys st2 := by
    rw [nodeKeys, nodeKeys, hfinal.1]
  refine ⟨?_, ?_, ?_, ?_, ?_⟩
  · rw [hkeysfinal]
    exact hnodup2
  · intro p hp
    rw [hfinal.1] at hp
    exact haddr2 p hp
  · rw [hkeysfinal]
    exact hfinal.2.2
  · intro p hp a ha
    rw [hkeysfinal]
    rw [hfinal.2.1] at hp
    exact hnta2 p hp a ha
  · intro k hk
    rw [hkeysfinal] at hk
    rw [List.mem_append]
    rcases (hkeys2 k).1 hk with hk | hk
    · exact Or.inl (h5 k hk)
    · exact Or.inr hk

/-! ### Communication graph builder invariant lemmas -/

theorem foldl_commAddr_state (cs : List FetchedContract) :
    ∀ st : CommBuilderState,
      ((cs.foldl (fun s c =>
          { s with addressToContract := mapSet s.addressToContract (strToLower c.address) c })
        st).nodes = st.nodes)
      ∧ ((cs.foldl (fun s c =>
          { s with addressToContract := mapSet s.addressToContract (strToLower c.address) c })
        st).edges = st.edges) := by
  induction cs with
  | nil => intro st; exact ⟨rfl, rfl⟩
  | cons c rest ih =>
      intro st
      rw [List.foldl_cons]
      exact ⟨(ih _).1, (ih _).2⟩

theorem foldl_commSetNode_state (cs : List FetchedContract) :
    ∀ st : CommBuilderState,
      ((cs.foldl (fun s c => { s with nodes := mapSet s.nodes (strToLower c.address) (commBuildNode c) })
        st).edges = st.edges)
      ∧ ((cs.foldl (fun s c => { s with nodes := mapSet s.nodes (strToLower c.address) (commBuildNode c) })
        st).addressToContract = st.addressToContract) := by
  induction cs with
  | nil => intro st; exact ⟨rfl, rfl⟩
  | cons c rest ih =>
      intro st
      rw [List.foldl_cons]
      exact ⟨(ih _).1, (ih _).2⟩

theorem foldl_commSetNode_keys (cs : List FetchedContract) :
    ∀ (st : CommBuilderState) (k : String),
      k ∈ commNodeKeys (cs.foldl
          (fun s c => { s with nodes := mapSet s.nodes (strToLower c.address) (commBuildNode c) }) st) ↔
        k ∈ commNodeKeys st ∨ k ∈ cs.map (fun c => strToLower c.address) := by
  induction cs with
  | nil => intro st k; simp
  | cons c rest ih =>
      intro st k
      rw [List.foldl_cons, ih _ k, List.map_cons, List.mem_cons]
      have hkeys :
          k ∈ commNodeKeys { st with nodes := mapSet st.nodes (strToLower c.address) (commBuildNode c) } ↔
            k ∈ commNodeKeys st ∨ k = strToLower c.address :=
        mapSet_keys_mem st.nodes (strToLower c.address) k (commBuildNode c)
      rw [hkeys]
      tauto

theorem foldl_commSetNode_nodup (cs : List FetchedContract) (st : CommBuilderState)
    (h : (commNodeKeys st).Nodup) :
    (commNodeKeys (cs.foldl
        (fun s c => { s with nodes := mapSet s.nodes (strToLower c.address) (commBuildNode c) })
      st)).Nodup := by
  refine foldl_preserve (fun s => (commNodeKeys s).Nodup) _ cs ?_ st h
  intro s c _ h'
  exact mapSet_keys_nodup s.nodes (strToLower c.address) (commBuildNode c) h'

theorem foldl_commSetNode_addrfield (cs : List FetchedContract) (st : CommBuilderState)
    (h : ∀ p ∈ st.nodes, strToLower p.2.address = p.1) :
    ∀ p ∈ (cs.foldl
        (fun s c => { s with nodes := mapSet s.nodes (strToLower c.address) (commBuildNode c) })
      st).nodes, strToLower p.2.address = p.1 := by
  refine foldl_preserve (fun s => ∀ p ∈ s.nodes, strToLower p.2.address = p.1) _ cs ?_ st h
  intro s c _ h' p hp
  rcases mem_of_mapSet hp with hpe | hpm
  · rw [hpe]
    rfl
  · exact h' p hpm

theorem commEdgesOk_analyzeCommunications (st : CommBuilderState) (c : FetchedContract)
    (K : List String) (hca : strToLower c.address ∈ K)
    (hK : ∀ k ∈ commNodeKeys st, k ∈ K) (h : CommEdgesOk K st.edges) :
    CommEdgesOk K (analyzeCommunications st c).edges := by
  simp only [analyzeCommunications]
  have hfound : ∀ a ∈ (scanAddresses (joinSources c)).foldl
      (fun acc m =>
        if strToLower m != strToLower c.address && mapHas st.nodes (strToLower m) then
          insertUnique acc (strToLower m)
        else acc) [], a ∈ K := by
    refine foldl_insertUnique_guard (fun a => a ∈ K) (fun m => strToLower m)
      (fun m => strToLower m != strToLower c.address && mapHas st.nodes (strToLower m)) ?_
      (scanAddresses (joinSources c)) [] (by simp)
    intro m hm
    rw [Bool.and_eq_true] at hm
    exact hK _ (mapHas_mem hm.2)
  refine foldl_preserve (CommEdgesOk K) _ _ ?_ st.edges h
  intro es ta hta hok
  dsimp only
  cases hg : mapGet st.addressToContract ta with
  | some tgt => exact commEdgesOk_addEdge K es _ hca (hfound ta hta) hok
  | none => exact hok

theorem bidirOk_commAddEdge (es : List CommunicationEdge) (e : CommunicationEdge)
    (hb : e.bidirectional = checkBidirectional es e.source e.target) (h : BidirOk es) :
    BidirOk (commAddEdge es e) := by
  rw [commAddEdge]
  by_cases hd : (es.any fun x =>
      x.source == e.source && x.target == e.target && x.pattern == e.pattern) = true
  · rwa [if_pos hd]
  · rw [if_neg hd]
    intro i hi
    have hi' : i < es.length + 1 := by
      rw [List.length_append, List.length_singleton] at hi
      exact hi
    by_cases hlt : i < es.length
    · have hget : (es ++ [e]).get ⟨i, hi⟩ = es.get ⟨i, hlt⟩ := by
        simp [List.get_eq_getElem, List.getElem_append_left hlt]
      have htake : (es ++ [e]).take i = es.take i :=
        List.take_append_of_le_length (Nat.le_of_lt hlt)
      rw [hget, htake]
      exact h i hlt
    · have hieq : i = es.length := by omega
      subst hieq
      have hget : (es ++ [e]).get ⟨es.length, hi⟩ = e := by
        simp [List.get_eq_getElem, List.getElem_concat_length]
      have htake : (es ++ [e]).take es.length = es := List.take_left es [e]
      rw [hget, htake]
      exact hb

theorem bidirOk_analyzeCommunications (st : CommBuilderState) (c : FetchedContract)
    (h : BidirOk st.edges) : BidirOk (analyzeCommunications st c).edges := by
  simp only [analyzeCommunications]
  refine foldl_preserve BidirOk _ _ ?_ st.edges h
  intro es ta _ hok
  dsimp only
  cases hg : mapGet st.addressToContract ta with
  | some tgt => exact bidirOk_commAddEdge es _ rfl hok
  | none => exact hok

theorem updateCounts_edges (st : CommBuilderState) :
    (updateCommunicationCounts st).edges = st.edges := rfl

theorem updateCounts_keys (st : CommBuilderState) :
    commNodeKeys (updateCommunicationCounts st) = commNodeKeys st := by
  simp only [updateCommunicationCounts, commNodeKeys, List.map_map]
  apply List.map_congr_left
  intro p _
  rfl

theorem updateCounts_addrfield (st : CommBuilderState)
    (h : ∀ p ∈ st.nodes, strToLower p.2.address = p.1) :
    ∀ p ∈ (updateCommunicationCounts st).nodes, strToLower p.2.address = p.1 := by
  intro p hp
  simp only [updateCommunicationCounts, List.mem_map] at hp
  obtain ⟨q, hq, hqe⟩ := hp
  rw [← hqe]
  exact h q hq

theorem commAddContracts_inv (st : CommBuilderState) (cs : List FetchedContract)
    (added : List String)
    (h1 : (commNodeKeys st).Nodup)
    (h2 : ∀ p ∈ st.nodes, strToLower p.2.address = p.1)
    (h3 : CommEdgesOk (commNodeKeys st) st.edges)
    (h4 : ∀ k ∈ commNodeKeys st, k ∈ added) :
    (commNodeKeys (commAddContracts st cs)).Nodup
    ∧ (∀ p ∈ (commAddContracts st cs).nodes, strToLower p.2.address = p.1)
    ∧ CommEdgesOk (commNodeKeys (commAddContracts st cs)) (commAddContracts st cs).edges
    ∧ (∀ k ∈ commNodeKeys (commAddContracts st cs),
        k ∈ added ++ cs.map (fun c => strToLower c.address)) := by
  have hst1 := foldl_commAddr_state cs st
  set st1 := cs.foldl
    (fun s c => { s with addressToContract := mapSet s.addressToContract (strToLower c.address) c })
    st with hst1def
  have hkeys1 : commNodeKeys st1 = commNodeKeys st := by
    rw [commNodeKeys, commNodeKeys, hst1.1]
  have hst2 := foldl_commSetNode_state cs st1
  set st2 := cs.foldl
    (fun s c => { s with nodes := mapSet s.nodes (strToLower c.address) (commBuildNode c) })
    st1 with hst2def
  have hkeys2 : ∀ k, k ∈ commNodeKeys st2 ↔
      k ∈ commNodeKeys st ∨ k ∈ cs.map (fun c => strToLower c.address) := by
    intro k
    rw [foldl_commSetNode_keys cs st1 k, hkeys1]
  have hnodup2 : (commNodeKeys st2).Nodup :=
    foldl_commSetNode_nodup cs st1 (by rw [hkeys1]; exact h1)
  have haddr2 : ∀ p ∈ st2.nodes, strToLower p.2.address = p.1 :=
    foldl_commSetNode_addrfield cs st1 (by rw [hst1.1]; exact h2)
  have hedges2 : st2.edges = st.edges := by rw [hst2.1, hst1.2]
  have hedgesOk2 : CommEdgesOk (commNodeKeys st2) st2.edges := by
    rw [hedges2]
    refine commEdgesOk_mono (commNodeKeys st) (commNodeKeys st2) ?_ st.edges h3
    intro k hk
    exact (hkeys2 k).2 (Or.inl hk)
  have hca2 : ∀ c ∈ cs, strToLower c.address ∈ commNodeKeys st2 := by
    intro c hc
    exact (hkeys2 _).2 (Or.inr (List.mem_map.2 ⟨c, hc, rfl⟩))
  have hphase3 : ∀ (l : List FetchedContract), (∀ x ∈ l, x ∈ cs) →
      ∀ s : CommBuilderState, s.nodes = st2.nodes →
        CommEdgesOk (commNodeKeys st2) s.edges →
        (l.foldl analyzeCommunications s).nodes = st2.nodes
        ∧ CommEdgesOk (commNodeKeys st2) (l.foldl analyzeCommunications s).edges := by
    intro l
    induction l with
    | nil => intro _ s hn he; exact ⟨hn, he⟩
    | cons c rest ih =>
        intro hl s hn he
        rw [List.foldl_cons]
        have hstep := commEdgesOk_analyzeCommunications s c (commNodeKeys st2)
          (hca2 c (hl c (List.mem_cons_self _ _)))
          (fun k hk => by
            rw [commNodeKeys, hn] at hk
            exact hk)
          he
        exact ih (fun x hx => hl x (List.mem_cons_of_mem _ hx))
          (analyzeCommunications s c) hn hstep
  have hfinal := hphase3 cs (fun x hx => hx) st2 rfl hedgesOk2
  have haddeq : commAddContracts st cs =
      updateCommunicationCounts (cs.foldl analyzeCommunications st2) := rfl
  rw [haddeq]
  have hkeysu : commNodeKeys (updateCommunicationCounts (cs.foldl analyzeCommunications st2)) =
      commNodeKeys st2 := by
    rw [updateCounts_keys, commNodeKeys, commNodeKeys, hfinal.1]
  refine ⟨?_, ?_, ?_, ?_⟩
  · rw [hkeysu]
    exact hnodup2
  · refine updateCounts_addrfield _ ?_
    intro p hp
    rw [hfinal.1] at hp
    exact haddr2 p hp
  · rw [hkeysu, updateCounts_edges]
    exact hfinal.2
  · intro k hk
    rw [hkeysu] at hk
    rw [List.mem_append]
    rcases (hkeys2 k).1 hk with hk | hk
    · exact Or.inl (h4 k hk)
    · exact Or.inr hk

theorem addedAddresses_cons (call : List FetchedContract) (rest : List (List FetchedContract)) :
    addedAddresses (call :: rest) =
      call.map (fun c => strToLower c.address) ++ addedAddresses rest := by
  simp [addedAddresses]

theorem runCodeBuilder_inv_aux (ex : SourceExtractors) :
    ∀ (calls : List (List FetchedContract)) (st : CodeGraphBuilderState) (added : List String),
      (nodeKeys st).Nodup →
      (∀ p ∈ st.nodes, strToLower p.2.address = p.1) →
      EdgesOk (nodeKeys st) st.edges →
      (∀ p ∈ st.nameToAddresses, ∀ a ∈ p.2, a ∈ nodeKeys st) →
      (∀ k ∈ nodeKeys st, k ∈ added) →
      (nodeKeys (calls.foldl (addContracts ex) st)).Nodup
      ∧ (∀ p ∈ (calls.foldl (addContracts ex) st).nodes, strToLower p.2.address = p.1)
      ∧ EdgesOk (nodeKeys (calls.foldl (addContracts ex) st))
          (calls.foldl (addContracts ex) st).edges
      ∧ (∀ p ∈ (calls.foldl (addContracts ex) st).nameToAddresses, ∀ a ∈ p.2,
          a ∈ nodeKeys (calls.foldl (addContracts ex) st))
      ∧ (∀ k ∈ nodeKeys (calls.foldl (addContracts ex) st), k ∈ added ++ addedAddresses calls) := by
  intro calls
  induction calls with
  | nil =>
      intro st added h1 h2 h3 h4 h5
      refine ⟨h1, h2, h3, h4, ?_⟩
      intro k hk
      rw [List.mem_append]
      exact Or.inl (h5 k hk)
  | cons call rest ih =>
      intro st added h1 h2 h3 h4 h5
      rw [List.foldl_cons]
      have hstep := addContracts_inv ex st call added h1 h2 h3 h4 h5
      have hrec := ih (addContracts ex st call)
        (added ++ call.map (fun c => strToLower c.address))
        hstep.1 hstep.2.1 hstep.2.2.1 hstep.2.2.2.1 hstep.2.2.2.2
      refine ⟨hrec.1, hrec.2.1, hrec.2.2.1, hrec.2.2.2.1, ?_⟩
      intro k hk
      have := hrec.2.2.2.2 k hk
      rw [addedAddresses_cons, ← List.append_assoc]
      exact this

theorem runCommBuilder_inv_aux :
    ∀ (calls : List (List FetchedContract)) (st : CommBuilderState) (added : List String),
      (commNodeKeys st).Nodup →
      (∀ p ∈ st.nodes, strToLower p.2.address = p.1) →
      CommEdgesOk (commNodeKeys st) st.edges →
      (∀ k ∈ commNodeKeys st, k ∈ added) →
      (commNodeKeys (calls.foldl commAddContracts st)).Nodup
      ∧ (∀ p ∈ (calls.foldl commAddContracts st).nodes, strToLower p.2.address = p.1)
      ∧ CommEdgesOk (commNodeKeys (calls.foldl commAddContracts st))
          (calls.foldl commAddContracts st).edges
      ∧ (∀ k ∈ commNodeKeys (calls.foldl commAddContracts st), k ∈ added ++ addedAddresses calls) := by
  intro calls
  induction calls with
  | nil =>
      intro st added h1 h2 h3 h4
      refine ⟨h1, h2, h3, ?_⟩
      intro k hk
      rw [List.mem_append]
      exact Or.inl (h4 k hk)
  | cons call rest ih =>
      intro st added h1 h2 h3 h4
      rw [List.foldl_cons]
      have hstep := commAddContracts_inv st call added h1 h2 h3 h4
      have hrec := ih (commAddContracts st call)
        (added ++ call.map (fun c => strToLower c.address))
        hstep.1 hstep.2.1 hstep.2.2.1 hstep.2.2.2
      refine ⟨hrec.1, hrec.2.1, hrec.2.2.1, ?_⟩
      intro k hk
      have := hrec.2.2.2 k hk
      rw [addedAddresses_cons, ← List.append_assoc]
      exact this

/-- C5: invariants of built graphs, for either builder and any sequence of
addContracts calls.  The built code graph and communication graph carry no
two nodes with the same lowercased address key and no two edges with the same
(source, target, relationship or pattern) key, and every edge's source and
target are lowercased addresses of contracts added to that builder — an
address literal naming a contract outside the added set never yields an
edge. -/
theorem built_graph_invariants (ex : SourceExtractors) (calls : List (List FetchedContract)) :
    ((buildGraph (runCodeBuilder ex calls)).nodes.map (fun n => strToLower n.address)).Nodup
    ∧ EdgeKeyDistinct (buildGraph (runCodeBuilder ex calls)).edges
    ∧ (∀ e ∈ (buildGraph (runCodeBuilder ex calls)).edges,
        e.source ∈ addedAddresses calls ∧ e.target ∈ addedAddresses calls)
    ∧ ((commBuild (runCommBuilder calls)).nodes.map (fun n => strToLower n.address)).Nodup
    ∧ CommEdgeKeyDistinct (commBuild (runCommBuilder calls)).edges
    ∧ (∀ e ∈ (commBuild (runCommBuilder calls)).edges,
        e.source ∈ addedAddresses calls ∧ e.target ∈ addedAddresses calls) := by
  simp only [runCodeBuilder, runCommBuilder]
  have hcode := runCodeBuilder_inv_aux ex calls emptyCodeState []
    (by simp [emptyCodeState, nodeKeys])
    (by intro p hp; simp [emptyCodeState] at hp)
    (by
      constructor
      · simp [EdgeKeyDistinct, emptyCodeState]
      · intro e he
        simp [emptyCodeState] at he)
    (by intro p hp; simp [emptyCodeState] at hp)
    (by intro k hk; simp [emptyCodeState, nodeKeys] at hk)
  have hcomm := runCommBuilder_inv_aux calls emptyCommState []
    (by simp [emptyCommState, commNodeKeys])
    (by intro p hp; simp [emptyCommState] at hp)
    (by
      constructor
      · simp [CommEdgeKeyDistinct, emptyCommState]
      · intro e he
        simp [emptyCommState] at he)
    (by intro k hk; simp [emptyCommState, commNodeKeys] at hk)
  set stc := calls.foldl (addContracts ex) emptyCodeState with hstc
  set stm := calls.foldl commAddContracts emptyCommState with hstm
  have hmapc : (buildGraph stc).nodes.map (fun n => strToLower n.address) = nodeKeys stc := by
    show (stc.nodes.map (fun p => p.2)).map (fun n => strToLower n.address) = nodeKeys stc
    rw [List.map_map, nodeKeys]
    apply List.map_congr_left
    intro p hp
    exact hcode.2.1 p hp
  have hmapm : (commBuild stm).nodes.map (fun n => strToLower n.address) = commNodeKeys stm := by
    show (stm.nodes.map (fun p => p.2)).map (fun n => strToLower n.address) = commNodeKeys stm
    rw [List.map_map, commNodeKeys]
    apply List.map_congr_left
    intro p hp
    exact hcomm.2.1 p hp
  refine ⟨?_, ?_, ?_, ?_, ?_, ?_⟩
  · rw [hmapc]
    exact hcode.1
  · exact hcode.2.2.1.1
  · intro e he
    have hmem := hcode.2.2.1.2 e he
    have hsub := hcode.2.2.2.2
    constructor
    · have := hsub e.source hmem.1
      rwa [List.nil_append] at this
    · have := hsub e.target hmem.2
      rwa [List.nil_append] at this
  · rw [hmapm]
    exact hcomm.1
  · exact hcomm.2.2.1.1
  · intro e he
    have hmem := hcomm.2.2.1.2 e he
    have hsub := hcomm.2.2.2
    constructor
    · have := hsub e.source hmem.1
      rwa [List.nil_append] at this
    · have := hsub e.target hmem.2
      rwa [List.nil_append] at this

/-- Witness: in the two-contract same-protocol scenario the generated
same-protocol edge's endpoints are addresses of the added contracts. -/
theorem built_graph_invariants_witness :
    sameProtocolEdge.source ∈ addedAddresses [[protoContract1, protoContract2]]
    ∧ sameProtocolEdge.target ∈ addedAddresses [[protoContract1, protoContract2]] :=
  (built_graph_invariants trivialExtractors [[protoContract1, protoContract2]]).2.2.1
    sameProtocolEdge (by decide)

/-- C7: every communication edge's bidirectional flag equals whether an edge
with swapped source and target already existed among the earlier-appended
edges at the moment the edge was added (the flag is never recomputed); in the
mutual-reference scenario the first-processed direction therefore carries
bidirectional false and the later reverse direction carries true, and
reversing the processing order swaps the flags. -/
theorem bidirectional_flag_order_dependent :
    (∀ contracts : List FetchedContract, BidirOk (buildCommunicationGraph contracts).edges)
    ∧ (buildCommunicationGraph [mutualA, mutualB]).edges =
        [mutualEdgeAB false, mutualEdgeBA true]
    ∧ (buildCommunicationGraph [mutualB, mutualA]).edges =
        [mutualEdgeBA false, mutualEdgeAB true] := by
  refine ⟨?_, by decide, by decide⟩
  intro contracts
  show BidirOk (commAddContracts emptyCommState contracts).edges
  have e1 := (foldl_commAddr_state contracts emptyCommState).2
  set st1 := contracts.foldl
    (fun s c => { s with addressToContract := mapSet s.addressToContract (strToLower c.address) c })
    emptyCommState with hst1
  have e2 := (foldl_commSetNode_state contracts st1).1
  set st2 := contracts.foldl
    (fun s c => { s with nodes := mapSet s.nodes (strToLower c.address) (commBuildNode c) })
    st1 with hst2
  have h0 : BidirOk st2.edges := by
    rw [e2, e1]
    intro i hi
    simp [emptyCommState] at hi
  exact foldl_preserve (fun s => BidirOk s.edges) analyzeCommunications contracts
    (fun s c _ hq => bidirOk_analyzeCommunications s c hq) st2 h0

/-- Witness: in the mutual-reference scenario the second-appended edge's flag
equals the existence of its reverse among the edges present when it was
added. -/
theorem bidirectional_flag_witness :
    ((buildCommunicationGraph [mutualA, mutualB]).edges.get ⟨1, by decide⟩).bidirectional =
      checkBidirectional ((buildCommunicationGraph [mutualA, mutualB]).edges.take 1)
        ((buildCommunicationGraph [mutualA, mutualB]).edges.get ⟨1, by decide⟩).source
        ((buildCommunicationGraph [mutualA, mutualB]).edges.get ⟨1, by decide⟩).target :=
  bidirectional_flag_order_dependent.1 [mutualA, mutualB] 1 (by decide)
